import Mathlib

/-!
Verification of the branch-memory context store
(`src/branch-memory/storage.ts`, with its collaborators
`collector.ts`, `git.ts`, `config.ts`, `types.ts`).

Modelling conventions:
* JavaScript strings are modelled as `List Char` (one element per UTF-16
  code unit; all the characters the store manipulates are in the BMP,
  where code units and scalar values coincide).
* The storage directory is modelled as an association list from file
  names to file contents (`Fs`).  `fs.readdir` returns the names in list
  order; every operation that depends on order in the source sorts
  explicitly, as the source does.
* `JSON.stringify`/`JSON.parse` are modelled at the document level: a
  file either holds the serialization of a typed document
  (`Content.doc`) or unparsable text (`Content.garbage`).  This reflects
  that `JSON.parse(JSON.stringify(x))` is deep-equal to `x` for the
  JSON-safe `BranchContext` records the store handles, and that the
  source casts the parse result without validation.
* `Date.now()` and `Math.random()` are passed in as explicit `time` and
  `salt` parameters.
-/

/-- Role of a conversation message, from `types.ts` (`'user' | 'assistant'`). -/
inductive Role where
  | user
  | assistant
deriving DecidableEq, Repr

/-- Todo status, from `types.ts` (`'pending' | 'in_progress' | 'completed'`). -/
inductive TodoStatus where
  | pending
  | in_progress
  | completed
deriving DecidableEq, Repr

/-- Message record, from `types.ts`. -/
structure Message where
  role : Role
  content : List Char
  timestamp : List Char
deriving DecidableEq, Repr

/-- Todo record, from `types.ts`. -/
structure Todo where
  id : List Char
  content : List Char
  status : TodoStatus
deriving DecidableEq, Repr

/-- The `metadata` block of a `BranchContext`, from `types.ts`. -/
structure ContextMeta where
  version : List Char
  platform : List Char
  size : Nat
  messageCount : Nat
  todoCount : Nat
  fileCount : Nat
deriving DecidableEq, Repr

/-- The `data` block of a `BranchContext`, from `types.ts`.  The optional
fields (`messages?`, `todos?`, `files?`, `summary?`, `description?`)
become `Option`s; an absent field is `none`. -/
structure ContextData where
  messages : Option (List Message)
  todos : Option (List Todo)
  files : Option (List (List Char))
  summary : Option (List Char)
  description : Option (List Char)
deriving DecidableEq, Repr

/-- The persisted document, from `types.ts`. -/
structure BranchContext where
  branch : List Char
  savedAt : List Char
  metadata : ContextMeta
  data : ContextData
deriving DecidableEq, Repr

/-- Content of a stored file: either the serialization of a document
(`JSON.stringify` of a `BranchContext`), or text on which `JSON.parse`
throws. -/
inductive Content where
  | doc (c : BranchContext)
  | garbage (s : List Char)
deriving DecidableEq, Repr

/-- JSON.parse followed by the unchecked `as BranchContext` cast:
succeeds exactly on well-formed serializations. -/
def parseContent : Content → Option BranchContext
  | .doc c => some c
  | .garbage _ => none

/-- Characters replaced by `_` in `sanitizeBranchName`
(the regex class used in both storage.ts line 43 and git.ts line 113). -/
def isForbiddenChar (c : Char) : Bool :=
  c = '/' || c = '\\' || c = ':' || c = '*' || c = '?' || c = '"' ||
  c = '<' || c = '>' || c = '|'

/-- The character class of the JavaScript regex `\s` (WhiteSpace and
LineTerminator code points). -/
def isJsWs (c : Char) : Bool :=
  c.toNat = 0x9 || c.toNat = 0xA || c.toNat = 0xB || c.toNat = 0xC ||
  c.toNat = 0xD || c.toNat = 0x20 || c.toNat = 0xA0 || c.toNat = 0x1680 ||
  (0x2000 ≤ c.toNat && c.toNat ≤ 0x200A) ||
  c.toNat = 0x2028 || c.toNat = 0x2029 || c.toNat = 0x202F ||
  c.toNat = 0x205F || c.toNat = 0x3000 || c.toNat = 0xFEFF

/-- C0 and C1 control characters: the regex `[\u0000-\u001F\u007F-\u009F]`
of git.ts line 115. -/
def isC0C1 (c : Char) : Bool :=
  c.toNat ≤ 0x1F || (0x7F ≤ c.toNat && c.toNat ≤ 0x9F)

/-- Private-use and specials ranges: the regex `[-￰-￿]`
of git.ts line 116. -/
def isPrivateUse (c : Char) : Bool :=
  (0xE000 ≤ c.toNat && c.toNat ≤ 0xF8FF) ||
  (0xFFF0 ≤ c.toNat && c.toNat ≤ 0xFFFF)

/-- One step of `.replace(/[\/\\:*?"<>|]/g, '_')`. -/
def replaceForbidden (c : Char) : Char :=
  if isForbiddenChar c then '_' else c

/-- Global replacement of `\s+` runs by a single `-`
(`.replace(/\s+/g, '-')`).  The boolean records whether the previous
character was part of a whitespace run already replaced. -/
def collapseWsAux : Bool → List Char → List Char
  | _, [] => []
  | prevWs, c :: rest =>
    if isJsWs c then
      if prevWs then collapseWsAux true rest
      else '-' :: collapseWsAux true rest
    else c :: collapseWsAux false rest

/-- The `\s+` → `-` replacement applied to a whole string. -/
def collapseWs (l : List Char) : List Char := collapseWsAux false l

/-- JavaScript `String.prototype.trim`: drop WhiteSpace/LineTerminator
characters from both ends. -/
def jsTrim (l : List Char) : List Char :=
  ((l.dropWhile isJsWs).reverse.dropWhile isJsWs).reverse

/-- ContextStorage.sanitizeBranchName (storage.ts lines 41-46):
replace the forbidden characters by `_`, collapse whitespace runs to
`-`, and truncate to 255 code units.  Note: no control-character
stripping and no trim in this variant. -/
def sanitizeBranchName (branch : List Char) : List Char :=
  ((collapseWs (branch.map replaceForbidden))).take 255

namespace GitOperations

/-- GitOperations.sanitizeBranchName (git.ts lines 111-119): replace the
forbidden characters by `_`, collapse whitespace runs to `-`, strip C0/C1
controls, strip private-use/specials, truncate to 255 code units, trim. -/
def sanitizeBranchName (branch : List Char) : List Char :=
  jsTrim ((((collapseWs (branch.map replaceForbidden)).filter
    (fun c => !(isC0C1 c))).filter (fun c => !(isPrivateUse c))).take 255)

end GitOperations

/-- Modelled from the spec (Section 4.1 contract sentence): replace the
characters / \ : * ? " < > | with `_`, collapse runs of whitespace to a
single `-`, strip C0/C1 control characters and the private-use/specials
ranges, truncate to 255 characters, trim leading/trailing whitespace. -/
def specSanitize (branch : List Char) : List Char :=
  jsTrim ((((collapseWs (branch.map replaceForbidden)).filter
    (fun c => !(isC0C1 c))).filter (fun c => !(isPrivateUse c))).take 255)

/-- Decimal digits of a positive number, most significant first; the
fuel argument makes the recursion structural so that terms reduce by
evaluation.  Models the template interpolation of a JS number. -/
def natDigitsAux : Nat → Nat → List Char
  | 0, _ => []
  | fuel + 1, n =>
    if n = 0 then []
    else natDigitsAux fuel (n / 10) ++ [Nat.digitChar (n % 10)]

/-- Decimal representation of a natural number, as produced by
JavaScript template interpolation of `Date.now()`. -/
def natToChars (n : Nat) : List Char :=
  if n = 0 then ['0'] else natDigitsAux (n + 1) n

/-- Reading a digit character back as a value (used to model
`parseInt(match[1], 10)` on an all-digit capture). -/
def charToDigit (c : Char) : Nat := c.toNat - 48

/-- Value of an all-digit character list, most significant first. -/
def charsToNat (l : List Char) : Nat :=
  l.foldl (fun a c => a * 10 + charToDigit c) 0

/-- File names inside the storage directory. -/
abbrev FName := List Char

/-- The suffix `.json`. -/
def jsonSuffix : FName := ['.', 'j', 's', 'o', 'n']

/-- The infix `.backup.` of backup file names. -/
def backupDot : FName := ['.', 'b', 'a', 'c', 'k', 'u', 'p', '.']

/-- The infix `.tmp.` of temporary file names. -/
def tmpDot : FName := ['.', 't', 'm', 'p', '.']

/-- ContextStorage.getBranchFile: `${sanitizeBranchName(branch)}.json`
(the storage directory prefix is implicit in the `Fs` model). -/
def getBranchFile (branch : List Char) : FName :=
  sanitizeBranchName branch ++ jsonSuffix

/-- ContextStorage.getBackupFile:
`${safeBranch}.backup.${timestamp}.json`. -/
def getBackupFile (branch : List Char) (timestamp : Nat) : FName :=
  sanitizeBranchName branch ++ backupDot ++ natToChars timestamp ++ jsonSuffix

/-- The unique temporary file of saveContext (storage.ts line 70):
`${filePath}.tmp.${Date.now()}.${randomSuffix}`. -/
def tempFileName (branch : List Char) (time : Nat) (salt : List Char) : FName :=
  getBranchFile branch ++ tmpDot ++ natToChars time ++ ['.'] ++ salt

/-- The storage directory: an association list from file names to file
contents.  Keys are kept unique by construction of the operations. -/
abbrev Fs := List (FName × Content)

/-- Content stored under a name, if any (models reading that path). -/
def fsGet (fs : Fs) (n : FName) : Option Content :=
  (fs.find? (fun p => p.1 = n)).map (fun p => p.2)

/-- Model of `existsSync`. -/
def fsExists (fs : Fs) (n : FName) : Bool :=
  (fsGet fs n).isSome

/-- Model of `fs.unlink` (success path): remove the entry. -/
def fsDelete (fs : Fs) (n : FName) : Fs :=
  fs.filter (fun p => !(p.1 = n : Bool))

/-- Model of `fs.writeFile`/`fs.copyFile` to a path (success path):
the path now holds exactly the given content. -/
def fsSet (fs : Fs) (n : FName) (c : Content) : Fs :=
  (n, c) :: fsDelete fs n

/-- Model of `fs.rename src dst` (success path). -/
def fsRename (fs : Fs) (src dst : FName) : Fs :=
  match fsGet fs src with
  | none => fs
  | some c => fsSet (fsDelete fs src) dst c

/-- Extraction of the timestamp from a backup file name: models
`f.match(/\.backup\.(\d+)\.json$/)` followed by
`parseInt(match[1], 10)`, with 0 when the regex does not match
(storage.ts lines 161-162).  A match of that anchored regex exists
exactly when, after removing the final `.json`, the name ends in
`.backup.` followed by a nonempty run of digits; the capture is that
maximal trailing digit run. -/
def extractTsCore (core : List Char) : Nat :=
  if (core.reverse.takeWhile Char.isDigit).isEmpty then 0
  else if backupDot.isSuffixOf
      (core.take (core.length - (core.reverse.takeWhile Char.isDigit).length)) then
    charsToNat (core.reverse.takeWhile Char.isDigit).reverse
  else 0

def extractTs (n : FName) : Nat :=
  if jsonSuffix.isSuffixOf n then
    extractTsCore (n.take (n.length - jsonSuffix.length))
  else 0

/-- The filename filter shared by cleanOldBackups, restoreFromBackup and
deleteContext: `f.startsWith(safeBranch + ".backup.") && f.endsWith(".json")`. -/
def isBackupFileOf (branch : List Char) (n : FName) : Bool :=
  (sanitizeBranchName branch ++ backupDot).isPrefixOf n && jsonSuffix.isSuffixOf n

/-- Names of the backup files of a branch currently on disk, in
directory order. -/
def backupNames (fs : Fs) (branch : List Char) : List FName :=
  (fs.map Prod.fst).filter (isBackupFileOf branch)

/-- The `{name, timestamp}` records built by cleanOldBackups and
restoreFromBackup (storage.ts lines 158-163 and 184-189). -/
def backupEntries (fs : Fs) (branch : List Char) : List (FName × Nat) :=
  (backupNames fs branch).map (fun n => (n, extractTs n))

/-- The comparator `(a, b) => b.timestamp - a.timestamp`: timestamp
descending. -/
def tsGe (p q : FName × Nat) : Prop := q.2 ≤ p.2

instance : DecidableRel tsGe := fun p q => Nat.decLe q.2 p.2

instance : IsTotal (FName × Nat) tsGe :=
  ⟨fun p q => Nat.le_total q.2 p.2⟩

instance : IsTrans (FName × Nat) tsGe :=
  ⟨fun _ _ _ h1 h2 => Nat.le_trans h2 h1⟩

/-- Backup entries of a branch sorted newest first, as both
cleanOldBackups and restoreFromBackup compute them. -/
def sortedBackupEntries (fs : Fs) (branch : List Char) : List (FName × Nat) :=
  (backupEntries fs branch).insertionSort tsGe

/-- ContextStorage.cleanOldBackups (storage.ts lines 154-173): list the
branch backups, sort by embedded timestamp descending, `.slice(5)` the
excess, and unlink each of them.  The retention count 5 is the literal
constant of line 165. -/
def cleanOldBackups (branch : List Char) (fs : Fs) : Fs :=
  ((sortedBackupEntries fs branch).drop 5).foldl
    (fun acc e => fsDelete acc e.1) fs

/-- ContextStorage.createBackup (storage.ts lines 133-148), success
path: if the canonical file still exists, copy it to
`getBackupFile(branch, Date.now())` and prune old backups. -/
def createBackup (time : Nat) (branch : List Char) (filePath : FName) (fs : Fs) : Fs :=
  match fsGet fs filePath with
  | none => fs
  | some c => cleanOldBackups branch (fsSet fs (getBackupFile branch time) c)

/-- ContextStorage.saveContext (storage.ts lines 65-90), success path:
back up an existing canonical file, write the serialized document to a
unique temporary file, and rename it onto the canonical path. -/
def saveContext (time : Nat) (salt : List Char) (branch : List Char)
    (context : BranchContext) (fs : Fs) : Fs :=
  let filePath := getBranchFile branch
  let tempFile := tempFileName branch time salt
  let fs1 := if fsExists fs filePath then createBackup time branch filePath fs else fs
  let fs2 := fsSet fs1 tempFile (.doc context)
  fsRename fs2 tempFile filePath

/-- ContextStorage.restoreFromBackup (storage.ts lines 180-208): walk
the branch backups newest first and return the first one whose content
parses; `null` when none does or the listing fails. -/
def restoreFromBackup (fs : Fs) (branch : List Char) : Option BranchContext :=
  (sortedBackupEntries fs branch).findSome?
    (fun e => (fsGet fs e.1).bind parseContent)

/-- ContextStorage.loadContext (storage.ts lines 97-126): absent file
gives `null`; a parse failure falls back to restoreFromBackup.  The
version check of lines 109-111 only logs a warning and does not affect
the result. -/
def loadContext (fs : Fs) (branch : List Char) : Option BranchContext :=
  match fsGet fs (getBranchFile branch) with
  | none => none
  | some content =>
    match parseContent content with
    | some data => some data
    | none => restoreFromBackup fs branch

/-- Model of `String.prototype.includes`: some rotation of the haystack
starts with the needle. -/
def containsSub (needle haystack : List Char) : Bool :=
  (List.range (haystack.length + 1)).any
    (fun i => needle.isPrefixOf (haystack.drop i))

/-- ContextStorage.listBranches (storage.ts lines 214-239): for every
file named `*.json` whose name does not contain `.backup.`, parse it and
collect the `branch` field stored inside; unparsable files are skipped. -/
def listBranches (fs : Fs) : List (List Char) :=
  fs.foldr
    (fun p acc =>
      if jsonSuffix.isSuffixOf p.1 && !(containsSub backupDot p.1) then
        match parseContent p.2 with
        | some d => d.branch :: acc
        | none => acc
      else acc) []

/-- ContextStorage.deleteContext (storage.ts lines 301-321), success
path: unlink the canonical file if present, then unlink every file
matching the branch backup pattern.  Every failure in the source is
swallowed. -/
def deleteContext (branch : List Char) (fs : Fs) : Fs :=
  let filePath := getBranchFile branch
  let fs1 := if fsExists fs filePath then fsDelete fs filePath else fs
  (backupNames fs1 branch).foldl fsDelete fs1

/-- Rendering of `${(n / 1024).toFixed(1)}KB` (storage.ts line 272) with
exact rational rounding in place of binary floating point; no claim
depends on its value. -/
def formatKB (n : Nat) : List Char :=
  let tenths := (n * 10 + 512) / 1024
  natToChars (tenths / 10) ++ ['.'] ++ [Nat.digitChar (tenths % 10)] ++ ['K', 'B']

/-- Result record of ContextStorage.getMetadata. -/
structure MetaView where
  size : List Char
  modified : List Char
  messageCount : Nat
  todoCount : Nat
  fileCount : Nat
deriving DecidableEq, Repr

/-- The record returned by getMetadata when no canonical file exists
(storage.ts lines 255-263). -/
def missingMeta : MetaView :=
  { size := ['0', 'K', 'B'], modified := ['N', 'e', 'v', 'e', 'r'],
    messageCount := 0, todoCount := 0, fileCount := 0 }

/-- The record returned by getMetadata when reading or parsing the
canonical file fails (storage.ts lines 285-294). -/
def errorMeta : MetaView :=
  { size := ['E', 'r', 'r', 'o', 'r'], modified := ['E', 'r', 'r', 'o', 'r'],
    messageCount := 0, todoCount := 0, fileCount := 0 }

/-- ContextStorage.getMetadata (storage.ts lines 246-295).  `readFails`
injects an `fs.readFile` failure on the canonical path; `nowIso` is the
`new Date().toISOString()` fallback used when `savedAt` is falsy.  In
this typed model a parsed document always carries its metadata block, so
the `data.metadata?.size` guard of line 271 always takes the metadata
branch and the `fs.stat` fallback is unreachable. -/
def getMetadata (readFails : Bool) (fs : Fs) (branch : List Char)
    (nowIso : List Char) : MetaView :=
  match fsGet fs (getBranchFile branch) with
  | none => missingMeta
  | some content =>
    if readFails then errorMeta
    else
      match parseContent content with
      | none => errorMeta
      | some d =>
        { size := formatKB d.metadata.size,
          modified := if d.savedAt.isEmpty then nowIso else d.savedAt,
          messageCount := d.metadata.messageCount,
          todoCount := d.metadata.todoCount,
          fileCount := d.metadata.fileCount }

/-- ContextCollector.collectContext (collector.ts lines 24-71), the part
after the current-branch check succeeds with `currentBranch`.  The
session inputs (`collectMessages`, `collectTodos`,
`GitOperations.getModifiedFiles`) and the clock and platform are
parameters; `serializedLen` stands for `JSON.stringify(data).length`,
which no claim constrains. -/
def collectContextCore (currentBranch : List Char)
    (msgs : List Message) (tds : List Todo) (fls : List (List Char))
    (includeMessages includeTodos includeFiles : Bool)
    (description : List Char) (nowIso platform : List Char)
    (serializedLen : Nat) : BranchContext :=
  let data : ContextData :=
    { messages := if includeMessages then some msgs else none,
      todos := if includeTodos then some tds else none,
      files := if includeFiles then some fls else none,
      summary := none,
      description := some description }
  { branch := currentBranch,
    savedAt := nowIso,
    metadata :=
      { version := ['1', '.', '0', '.', '0'],
        platform := platform,
        size := serializedLen,
        messageCount := (data.messages.map List.length).getD 0,
        todoCount := (data.todos.map List.length).getD 0,
        fileCount := (data.files.map List.length).getD 0 },
    data := data }

/-- ContextCollector.collectContext including the
`if (!currentBranch) throw` guard (collector.ts lines 30-33): `none`
models the thrown error. -/
def collectContext (currentBranch : Option (List Char))
    (msgs : List Message) (tds : List Todo) (fls : List (List Char))
    (includeMessages includeTodos includeFiles : Bool)
    (description : List Char) (nowIso platform : List Char)
    (serializedLen : Nat) : Option BranchContext :=
  currentBranch.map (fun cb =>
    collectContextCore cb msgs tds fls includeMessages includeTodos
      includeFiles description nowIso platform serializedLen)

/-- The `storage` block of the plugin configuration, from `types.ts`. -/
structure StorageConfig where
  maxBackups : Nat
  retentionDays : Nat
deriving DecidableEq, Repr

/-- The slice of `PluginConfig` the storage claims mention, from
`types.ts`; the unrelated blocks are omitted. -/
structure PluginConfig where
  storage : StorageConfig
deriving DecidableEq, Repr

/-- The `storage` block of DEFAULT_CONFIG (config.ts lines 25-28). -/
def defaultConfig : PluginConfig :=
  { storage := { maxBackups := 5, retentionDays := 90 } }

/-- Which primitive filesystem calls fail, for the error-propagation
claims.  Write, rename, copy, unlink and read failures are injected per
target path. -/
structure FsEnv where
  mkdirFails : Bool
  writeFails : FName → Bool
  renameFails : FName → Bool
  copyFails : FName → Bool
  unlinkFails : FName → Bool
  readFails : FName → Bool
  readdirFails : Bool

/-- The environment in which every call succeeds. -/
def okEnv : FsEnv :=
  { mkdirFails := false, writeFails := fun _ => false,
    renameFails := fun _ => false, copyFails := fun _ => false,
    unlinkFails := fun _ => false, readFails := fun _ => false,
    readdirFails := false }

/-- Errors that saveContext can propagate (storage.ts lines 51-58
rethrow the mkdir failure; lines 83-89 rethrow write and rename
failures after the temp-file cleanup). -/
inductive StorageErr where
  | mkdirFailed
  | writeFailed
  | renameFailed
deriving DecidableEq, Repr

/-- An `fs.unlink(p).catch(() => {})`: remove the entry unless the call
fails, and swallow the failure either way. -/
def unlinkQuiet (env : FsEnv) (fs : Fs) (n : FName) : Fs :=
  if env.unlinkFails n then fs else fsDelete fs n

/-- cleanOldBackups with failure injection: a readdir failure aborts the
pruning inside its own try/catch; every unlink failure is swallowed by
the per-file `.catch(() => {})` (storage.ts lines 154-173).  No failure
escapes. -/
def cleanOldBackupsE (env : FsEnv) (branch : List Char) (fs : Fs) : Fs :=
  if env.readdirFails then fs
  else
    ((sortedBackupEntries fs branch).drop 5).foldl
      (fun acc e => unlinkQuiet env acc e.1) fs

/-- createBackup with failure injection: a copy failure is caught by the
enclosing try/catch of storage.ts lines 134-147 and only logged.  No
failure escapes. -/
def createBackupE (env : FsEnv) (time : Nat) (branch : List Char)
    (filePath : FName) (fs : Fs) : Fs :=
  match fsGet fs filePath with
  | none => fs
  | some c =>
    if env.copyFails (getBackupFile branch time) then fs
    else cleanOldBackupsE env branch (fsSet fs (getBackupFile branch time) c)

/-- saveContext with failure injection (storage.ts lines 65-90): the
mkdir failure of ensureStorageDir is rethrown; backup failures are
swallowed inside createBackup; a write or rename failure triggers the
best-effort temp cleanup and is rethrown.  The first component is the
propagated error, the second the resulting directory state. -/
def saveContextE (env : FsEnv) (time : Nat) (salt branch : List Char)
    (context : BranchContext) (fs : Fs) : Option StorageErr × Fs :=
  if env.mkdirFails then (some .mkdirFailed, fs)
  else
    let filePath := getBranchFile branch
    let tempFile := tempFileName branch time salt
    let fs1 := if fsExists fs filePath then createBackupE env time branch filePath fs else fs
    if env.writeFails tempFile then
      (some .writeFailed, unlinkQuiet env fs1 tempFile)
    else
      let fs2 := fsSet fs1 tempFile (.doc context)
      if env.renameFails filePath then
        (some .renameFailed, unlinkQuiet env fs2 tempFile)
      else
        (none, fsRename fs2 tempFile filePath)

/-- deleteContext with failure injection (storage.ts lines 301-321): the
canonical unlink carries `.catch(() => {})`, the backup listing sits in
a try/catch that only logs, and each backup unlink again carries
`.catch(() => {})`.  The error component is reported for the
propagation claim. -/
def deleteContextE (env : FsEnv) (branch : List Char) (fs : Fs) :
    Option StorageErr × Fs :=
  let filePath := getBranchFile branch
  let fs1 := if fsExists fs filePath then unlinkQuiet env fs filePath else fs
  if env.readdirFails then (none, fs1)
  else (none, (backupNames fs1 branch).foldl (unlinkQuiet env) fs1)

/-- Directory states observed after each unlink of a pruning pass, in
order. -/
def foldDeleteStates (fs : Fs) : List (FName × Nat) → List Fs
  | [] => []
  | e :: es =>
    fsDelete fs e.1 :: foldDeleteStates (fsDelete fs e.1) es

/-- Directory states observed during cleanOldBackups, in order. -/
def cleanOldBackupsStates (branch : List Char) (fs : Fs) : List Fs :=
  foldDeleteStates fs ((sortedBackupEntries fs branch).drop 5)

/-- Directory states observed during createBackup, in order: the state
after the copy, then the pruning states. -/
def createBackupStates (time : Nat) (branch : List Char) (filePath : FName)
    (fs : Fs) : List Fs :=
  match fsGet fs filePath with
  | none => []
  | some c =>
    fsSet fs (getBackupFile branch time) c ::
      cleanOldBackupsStates branch (fsSet fs (getBackupFile branch time) c)

/-- Directory states observed during a successful saveContext, in
order: the backup states, the state after the temp-file write, and the
state after the rename.  A reader of the canonical path sees exactly
these intermediate states. -/
def saveContextTrace (time : Nat) (salt branch : List Char)
    (context : BranchContext) (fs : Fs) : List Fs :=
  let filePath := getBranchFile branch
  let tempFile := tempFileName branch time salt
  let pre := if fsExists fs filePath then createBackupStates time branch filePath fs else []
  let fs1 := pre.getLastD fs
  let fs2 := fsSet fs1 tempFile (.doc context)
  pre ++ [fs2, fsRename fs2 tempFile filePath]

/-- Boolean check that none of the given directory states changes the
content stored at `target` with respect to the value `old`. -/
def statesStableAt (states : List Fs) (target : FName) (old : Option Content) : Bool :=
  states.all (fun s => decide (fsGet s target = old))

/-- The directory after `n` successive saveContext calls for the same
branch, starting from an empty directory; save number `j` (1-based)
runs at time `ts j` with salt `salt j` and stores document `ctx j`. -/
def iterSave (ts : Nat → Nat) (salt : Nat → List Char)
    (ctx : Nat → BranchContext) (b : List Char) : Nat → Fs
  | 0 => []
  | k + 1 => saveContext (ts (k + 1)) (salt (k + 1)) b (ctx (k + 1))
      (iterSave ts salt ctx b k)

/-- The backup entry created by save number `j` (for `j ≥ 2`): the
pre-save canonical document `ctx (j-1)` filed under the timestamp of
save `j`. -/
def savedEntry (ts : Nat → Nat) (ctx : Nat → BranchContext) (b : List Char)
    (j : Nat) : FName × Content :=
  (getBackupFile b (ts j), .doc (ctx (j - 1)))

/-- The backups retained after `k` saves: none after the first save,
then the newest five of the previous retained set plus the fresh one. -/
def retainedBackups (ts : Nat → Nat) (ctx : Nat → BranchContext)
    (b : List Char) : Nat → Fs
  | 0 => []
  | k + 1 =>
    if k = 0 then []
    else (savedEntry ts ctx b (k + 1) :: retainedBackups ts ctx b k).take 5

/-- A concrete document used by witnesses and counterexamples. -/
def sampleDoc : BranchContext :=
  { branch := ['b'], savedAt := ['s'],
    metadata := { version := ['1', '.', '0', '.', '0'], platform := ['p'],
                  size := 2, messageCount := 0, todoCount := 0,
                  fileCount := 0 },
    data := { messages := none, todos := none, files := none,
              summary := none, description := none } }

/-- A second concrete document, distinct from the first. -/
def sampleDoc2 : BranchContext :=
  { branch := ['c'], savedAt := ['s'],
    metadata := { version := ['1', '.', '0', '.', '0'], platform := ['p'],
                  size := 3, messageCount := 1, todoCount := 2,
                  fileCount := 3 },
    data := { messages := none, todos := none, files := none,
              summary := none, description := some ['w'] } }

/-- A directory holding seven backup files of branch b, with embedded
timestamps 1 to 7. -/
def backupsSevenFs : Fs :=
  (List.range 7).map (fun i => (getBackupFile ['b'] (i + 1), Content.garbage ['g']))

/-! Arithmetic facts about the decimal printing and re-parsing of
timestamps. -/

theorem charToDigit_digitChar {d : Nat} (h : d < 10) :
    charToDigit (Nat.digitChar d) = d := by
  interval_cases d <;> rfl

theorem isDigit_digitChar {d : Nat} (h : d < 10) :
    (Nat.digitChar d).isDigit = true := by
  interval_cases d <;> rfl

theorem natDigitsAux_all_digits :
    ∀ fuel n, ∀ c ∈ natDigitsAux fuel n, c.isDigit = true := by
  intro fuel
  induction fuel with
  | zero => intro n c hc; simp [natDigitsAux] at hc
  | succ fuel ih =>
    intro n c hc
    by_cases h0 : n = 0
    · simp [natDigitsAux, h0] at hc
    · simp only [natDigitsAux, h0, if_false, List.mem_append,
        List.mem_singleton] at hc
      rcases hc with hc | hc
      · exact ih _ c hc
      · subst hc; exact isDigit_digitChar (Nat.mod_lt _ (by omega))

theorem charsToNat_from_natDigitsAux :
    ∀ fuel n a, n < fuel →
      (natDigitsAux fuel n).foldl (fun a c => a * 10 + charToDigit c) a =
        a * 10 ^ (natDigitsAux fuel n).length + n := by
  intro fuel
  induction fuel with
  | zero => intro n a h; omega
  | succ fuel ih =>
    intro n a h
    by_cases h0 : n = 0
    · simp [natDigitsAux, h0]
    · have hdiv : n / 10 < fuel := by
        have h1 : n / 10 < n := Nat.div_lt_self (by omega) (by omega)
        omega
      simp only [natDigitsAux, h0, if_false]
      rw [List.foldl_append]
      rw [ih _ a hdiv]
      simp only [List.foldl_cons, List.foldl_nil, List.length_append,
        List.length_singleton]
      rw [charToDigit_digitChar (Nat.mod_lt _ (by omega))]
      rw [pow_succ]
      have := Nat.div_add_mod n 10
      ring_nf
      omega

theorem charsToNat_natToChars (n : Nat) : charsToNat (natToChars n) = n := by
  by_cases h0 : n = 0
  · subst h0; rfl
  · unfold natToChars charsToNat
    rw [if_neg h0]
    rw [charsToNat_from_natDigitsAux (n + 1) n 0 (by omega)]
    simp

theorem natToChars_injective : Function.Injective natToChars := by
  intro a b h
  have := charsToNat_natToChars a
  rw [h, charsToNat_natToChars] at this
  omega

theorem natToChars_ne_nil (n : Nat) : natToChars n ≠ [] := by
  by_cases h0 : n = 0
  · subst h0; simp [natToChars]
  · unfold natToChars
    rw [if_neg h0]
    cases fuel_def : natDigitsAux (n + 1) n with
    | nil =>
      exfalso
      have : (natDigitsAux (n + 1) n).foldl
          (fun a c => a * 10 + charToDigit c) 0 = n :=
        by rw [charsToNat_from_natDigitsAux (n + 1) n 0 (by omega)]; simp
      rw [fuel_def] at this
      simp at this
      omega
    | cons c l => simp

theorem natToChars_all_digits (n : Nat) :
    ∀ c ∈ natToChars n, c.isDigit = true := by
  intro c hc
  by_cases h0 : n = 0
  · subst h0; simp [natToChars] at hc; subst hc; rfl
  · unfold natToChars at hc
    rw [if_neg h0] at hc
    exact natDigitsAux_all_digits _ _ c hc

/-! Association-list lemmas for the filesystem model. -/

theorem fsGet_fsSet_self (fs : Fs) (n : FName) (c : Content) :
    fsGet (fsSet fs n c) n = some c := by
  simp [fsSet, fsGet, List.find?_cons_of_pos]

theorem fsGet_fsDelete (fs : Fs) (n m : FName) :
    fsGet (fsDelete fs n) m = if m = n then none else fsGet fs m := by
  induction fs with
  | nil => simp [fsDelete, fsGet]
  | cons p fs ih =>
    unfold fsDelete at *
    rw [List.filter_cons]
    by_cases hpn : p.1 = n
    · rw [if_neg (by simp [hpn])]
      rw [ih]
      by_cases hmn : m = n
      · simp [hmn]
      · rw [if_neg hmn, if_neg hmn]
        unfold fsGet
        rw [List.find?_cons_of_neg]
        simp only [decide_eq_true_eq]
        intro hcontra
        exact hmn (by rw [← hcontra, hpn])
    · rw [if_pos (by simp [hpn])]
      by_cases hpm : p.1 = m
      · have hmn : ¬ m = n := fun h => hpn (by rw [hpm, h])
        rw [if_neg hmn]
        unfold fsGet
        rw [List.find?_cons_of_pos _ (by simp [hpm]),
          List.find?_cons_of_pos _ (by simp [hpm])]
      · unfold fsGet at *
        rw [List.find?_cons_of_neg _ (by simp [hpm])]
        by_cases hmn : m = n
        · simp only [hmn, if_pos] at ih ⊢
          exact ih
        · rw [if_neg hmn] at ih ⊢
          rw [List.find?_cons_of_neg _ (by simp [hpm])]
          exact ih

theorem fsGet_fsDelete_self (fs : Fs) (n : FName) :
    fsGet (fsDelete fs n) n = none := by
  simp [fsGet_fsDelete]

theorem fsGet_fsDelete_ne (fs : Fs) {n m : FName} (h : m ≠ n) :
    fsGet (fsDelete fs n) m = fsGet fs m := by
  simp [fsGet_fsDelete, h]

theorem fsGet_fsSet_ne (fs : Fs) {n m : FName} (c : Content) (h : m ≠ n) :
    fsGet (fsSet fs n c) m = fsGet fs m := by
  simp only [fsSet, fsGet]
  rw [List.find?_cons_of_neg]
  · exact fsGet_fsDelete_ne fs h
  · simp only [decide_eq_true_eq]
    exact fun hh => h hh.symm

theorem fsGet_fsRename_dest (fs : Fs) {src dst : FName} {c : Content}
    (h : fsGet fs src = some c) :
    fsGet (fsRename fs src dst) dst = some c := by
  simp only [fsRename, h]
  exact fsGet_fsSet_self _ _ _

/-! Facts about the generated file names. -/

theorem takeWhile_append_of_all {p : Char → Bool} :
    ∀ {l1 l2 : List Char}, (∀ c ∈ l1, p c = true) →
      (l1 ++ l2).takeWhile p = l1 ++ l2.takeWhile p := by
  intro l1
  induction l1 with
  | nil => intro l2 h; simp
  | cons c l ih =>
    intro l2 h
    have hc : p c = true := h c (by simp)
    simp only [List.cons_append, List.takeWhile_cons, hc, if_true]
    rw [ih (fun d hd => h d (by simp [hd]))]

theorem getBranchFile_ne_getBackupFile (b : List Char) (t : Nat) :
    getBranchFile b ≠ getBackupFile b t := by
  intro h
  unfold getBranchFile getBackupFile at h
  simp only [List.append_assoc] at h
  have h2 := List.append_cancel_left h
  have h3 := congrArg List.length h2
  simp [jsonSuffix, backupDot] at h3

theorem not_isBackupFileOf_canon (b : List Char) :
    isBackupFileOf b (getBranchFile b) = false := by
  unfold isBackupFileOf getBranchFile
  have hnp : ¬ ((sanitizeBranchName b ++ backupDot) <+:
      (sanitizeBranchName b ++ jsonSuffix)) := by
    rw [ List.prefix_append_right_inj]
    intro hpre
    have := hpre.length_le
    simp [backupDot, jsonSuffix] at this
  have : (sanitizeBranchName b ++ backupDot).isPrefixOf
      (sanitizeBranchName b ++ jsonSuffix) = false := by
    rw [← Bool.not_eq_true]
    rw [ List.isPrefixOf_iff_prefix]
    exact hnp
  simp [this]

theorem isBackupFileOf_getBackupFile (b : List Char) (t : Nat) :
    isBackupFileOf b (getBackupFile b t) = true := by
  unfold isBackupFileOf getBackupFile
  apply Bool.and_eq_true_iff.mpr
  constructor
  · rw [ List.isPrefixOf_iff_prefix]
    simp only [List.append_assoc]
    rw [← List.append_assoc]
    exact List.prefix_append _ _
  · rw [ List.isSuffixOf_iff_suffix]
    exact List.suffix_append _ _

theorem getBackupFile_inj (b : List Char) {t u : Nat}
    (h : getBackupFile b t = getBackupFile b u) : t = u := by
  unfold getBackupFile at h
  have h2 := List.append_cancel_right
    (List.append_cancel_left (List.append_cancel_left
      (by simpa only [List.append_assoc] using h)))
  exact natToChars_injective h2

theorem tempFileName_ne_getBranchFile (b : List Char) (t : Nat)
    (salt : List Char) : tempFileName b t salt ≠ getBranchFile b := by
  intro h
  unfold tempFileName at h
  have h3 := congrArg List.length h
  simp [tmpDot, List.length_append] at h3

theorem tempFileName_ne_getBackupFile (b : List Char) (t u : Nat)
    (salt : List Char) : tempFileName b t salt ≠ getBackupFile b u := by
  intro h
  unfold tempFileName getBranchFile getBackupFile at h
  simp only [List.append_assoc] at h
  have h2 := List.append_cancel_left h
  simp [jsonSuffix, backupDot] at h2

theorem extractTs_of_shape (sb nt : List Char) (hnt1 : nt ≠ [])
    (hnt2 : ∀ c ∈ nt, c.isDigit = true) :
    extractTs (sb ++ backupDot ++ nt ++ jsonSuffix) = charsToNat nt := by
  have hassoc : sb ++ backupDot ++ nt ++ jsonSuffix =
      ((sb ++ backupDot) ++ nt) ++ jsonSuffix := by
    simp [List.append_assoc]
  have hsuf : jsonSuffix.isSuffixOf (sb ++ backupDot ++ nt ++ jsonSuffix) = true := by
    rw [ List.isSuffixOf_iff_suffix, hassoc]
    exact List.suffix_append _ _
  unfold extractTs
  rw [if_pos hsuf, hassoc]
  have hlen : (((sb ++ backupDot) ++ nt) ++ jsonSuffix).length - jsonSuffix.length =
      ((sb ++ backupDot) ++ nt).length := by
    simp [List.length_append]
    omega
  rw [hlen, List.take_left' rfl]
  have hrev : (((sb ++ backupDot) ++ nt).reverse).takeWhile Char.isDigit =
      nt.reverse := by
    rw [List.reverse_append]
    rw [takeWhile_append_of_all (fun c hc => hnt2 c (List.mem_reverse.mp hc))]
    rw [List.reverse_append]
    have hbd : (backupDot.reverse ++ sb.reverse).takeWhile Char.isDigit = [] := by
      simp only [backupDot, List.reverse_cons, List.reverse_nil]
      simp only [List.nil_append, List.cons_append, List.append_assoc]
      rw [List.takeWhile_cons]
      simp
    rw [hbd, List.append_nil]
  unfold extractTsCore
  rw [hrev]
  rw [if_neg (by simp [List.isEmpty_iff, hnt1])]
  have hlen2 : ((sb ++ backupDot) ++ nt).length - nt.reverse.length =
      (sb ++ backupDot).length := by
    simp [List.length_append]
    omega
  rw [hlen2, List.take_left' rfl]
  rw [if_pos (by rw [ List.isSuffixOf_iff_suffix]; exact List.suffix_append _ _)]
  rw [List.reverse_reverse]

theorem extractTs_getBackupFile (b : List Char) (t : Nat) :
    extractTs (getBackupFile b t) = t := by
  unfold getBackupFile
  rw [extractTs_of_shape _ _ (natToChars_ne_nil t) (natToChars_all_digits t)]
  exact charsToNat_natToChars t

/-! Behaviour of saveContext on the canonical path. -/

theorem saveContext_canonical (time : Nat) (salt b : List Char)
    (ctx : BranchContext) (fs : Fs) :
    fsGet (saveContext time salt b ctx fs) (getBranchFile b) =
      some (.doc ctx) := by
  simp only [saveContext]
  apply fsGet_fsRename_dest
  exact fsGet_fsSet_self _ _ _

/-- C1: for every branch name and every document, immediately after a
successful save of the document under that branch, load returns a
document deep-equal to the one saved: the store persists it verbatim
and parses it back unchanged, altering no field. -/
theorem c1_save_load_roundtrip (time : Nat) (salt b : List Char)
    (ctx : BranchContext) (fs : Fs) :
    loadContext (saveContext time salt b ctx fs) b = some ctx := by
  unfold loadContext
  rw [saveContext_canonical]
  rfl

/-- C6 counterexample: deleteContext does not propagate a failure of the
file removal.  With an environment in which unlinking the canonical file
of branch `b` fails, deleting that branch reports no error to the caller
even though the canonical file is still present afterwards; the claim
says delete propagates such failures. -/
theorem c6_counterexample :
    (deleteContextE
        { okEnv with unlinkFails := fun n => n = getBranchFile ['b'] }
        ['b'] [(getBranchFile ['b'], .doc sampleDoc)]).1 = none ∧
    fsGet (deleteContextE
        { okEnv with unlinkFails := fun n => n = getBranchFile ['b'] }
        ['b'] [(getBranchFile ['b'], .doc sampleDoc)]).2
      (getBranchFile ['b']) = some (.doc sampleDoc) := by
  constructor
  · rfl
  · rfl

/-- C6 amended: saveContext propagates exactly the hard I/O failures of
its own directory creation, temp-file write and rename (and in
particular never propagates backup-creation or pruning failures, which
the right-hand side does not mention), while deleteContext never
propagates any failure: every unlink and the backup listing are wrapped
in swallowing handlers. -/
theorem c6_error_propagation (env : FsEnv) (time : Nat)
    (salt b : List Char) (ctx : BranchContext) (fs : Fs) :
    ((saveContextE env time salt b ctx fs).1 ≠ none ↔
      (env.mkdirFails = true ∨
        env.writeFails (tempFileName b time salt) = true ∨
        env.renameFails (getBranchFile b) = true)) ∧
    (deleteContextE env b fs).1 = none := by
  constructor
  · unfold saveContextE
    by_cases hm : env.mkdirFails
    · simp [hm]
    · by_cases hw : env.writeFails (tempFileName b time salt)
      · simp [hm, hw]
      · by_cases hr : env.renameFails (getBranchFile b)
        · simp [hm, hw, hr]
        · simp [hm, hw, hr]
  · unfold deleteContextE
    by_cases hd : env.readdirFails
    · simp [hd]
    · simp [hd]

/-- C6 witness: at a concrete environment in which only the rename onto
the canonical path fails, save reports an error while delete still
reports none. -/
theorem c6_error_propagation_witness :
    (saveContextE { okEnv with renameFails := fun n => n = getBranchFile ['b'] }
        1 [] ['b'] sampleDoc []).1 ≠ none ∧
    (deleteContextE { okEnv with renameFails := fun n => n = getBranchFile ['b'] }
        ['b'] []).1 = none :=
  ⟨(c6_error_propagation
      { okEnv with renameFails := fun n => n = getBranchFile ['b'] }
      1 [] ['b'] sampleDoc []).1.mpr (Or.inr (Or.inr (by decide))),
   (c6_error_propagation
      { okEnv with renameFails := fun n => n = getBranchFile ['b'] }
      1 [] ['b'] sampleDoc []).2⟩

/-! Idempotence machinery for the sanitization functions. -/

theorem collapseWsAux_chars : ∀ (l : List Char) (b : Bool),
    ∀ c ∈ collapseWsAux b l, c = '-' ∨ (c ∈ l ∧ isJsWs c = false) := by
  intro l
  induction l with
  | nil => intro b c hc; simp [collapseWsAux] at hc
  | cons x xs ih =>
    intro b c hc
    by_cases hx : isJsWs x
    · cases b with
      | true =>
        rw [show collapseWsAux true (x :: xs) = collapseWsAux true xs by
          simp [collapseWsAux, hx]] at hc
        rcases ih true c hc with h | h
        · exact Or.inl h
        · exact Or.inr ⟨List.mem_cons_of_mem _ h.1, h.2⟩
      | false =>
        rw [show collapseWsAux false (x :: xs) = '-' :: collapseWsAux true xs by
          simp [collapseWsAux, hx]] at hc
        rcases List.mem_cons.mp hc with hc | hc
        · exact Or.inl hc
        · rcases ih true c hc with h | h
          · exact Or.inl h
          · exact Or.inr ⟨List.mem_cons_of_mem _ h.1, h.2⟩
    · have hx2 : isJsWs x = false := by
        cases hfb : isJsWs x
        · rfl
        · exact absurd hfb hx
      have hstep : collapseWsAux b (x :: xs) = x :: collapseWsAux false xs := by
        cases b <;> simp [collapseWsAux, hx2]
      rw [hstep] at hc
      rcases List.mem_cons.mp hc with hc | hc
      · subst hc
        exact Or.inr ⟨List.mem_cons_self _ _, hx2⟩
      · rcases ih false c hc with h | h
        · exact Or.inl h
        · exact Or.inr ⟨List.mem_cons_of_mem _ h.1, h.2⟩

theorem collapseWsAux_no_ws (b : Bool) (l : List Char) :
    ∀ c ∈ collapseWsAux b l, isJsWs c = false := by
  intro c hc
  rcases collapseWsAux_chars l b c hc with h | h
  · subst h; rfl
  · exact h.2

theorem isForbiddenChar_replaceForbidden (c : Char) :
    isForbiddenChar (replaceForbidden c) = false := by
  unfold replaceForbidden
  by_cases h : isForbiddenChar c
  · simp [h]; rfl
  · rw [if_neg h]
    cases hfb : isForbiddenChar c
    · rfl
    · exact absurd hfb h

theorem map_replaceForbidden_eq_self :
    ∀ l : List Char, (∀ c ∈ l, isForbiddenChar c = false) →
      l.map replaceForbidden = l := by
  intro l hl
  induction l with
  | nil => rfl
  | cons x xs ih =>
    simp only [List.map_cons]
    rw [ih (fun c hc => hl c (List.mem_cons_of_mem _ hc))]
    have hx := hl x (List.mem_cons_self _ _)
    simp [replaceForbidden, hx]

theorem collapseWsAux_eq_self :
    ∀ l : List Char, (∀ c ∈ l, isJsWs c = false) →
      collapseWsAux false l = l := by
  intro l hl
  induction l with
  | nil => rfl
  | cons x xs ih =>
    have hx := hl x (List.mem_cons_self _ _)
    have hstep : collapseWsAux false (x :: xs) = x :: collapseWsAux false xs := by
      simp [collapseWsAux, hx]
    rw [hstep, ih (fun c hc => hl c (List.mem_cons_of_mem _ hc))]

theorem sanitizeBranchName_no_ws (s : List Char) :
    ∀ c ∈ sanitizeBranchName s, isJsWs c = false := by
  intro c hc
  unfold sanitizeBranchName collapseWs at hc
  exact collapseWsAux_no_ws false _ c (List.take_subset _ _ hc)

theorem sanitizeBranchName_no_forbidden (s : List Char) :
    ∀ c ∈ sanitizeBranchName s, isForbiddenChar c = false := by
  intro c hc
  unfold sanitizeBranchName collapseWs at hc
  rcases collapseWsAux_chars _ false c (List.take_subset _ _ hc) with h | h
  · subst h; rfl
  · rcases List.mem_map.mp h.1 with ⟨d, _, hd⟩
    rw [← hd]
    exact isForbiddenChar_replaceForbidden d

theorem sanitizeBranchName_length_le (s : List Char) :
    (sanitizeBranchName s).length ≤ 255 := by
  unfold sanitizeBranchName
  exact List.length_take_le 255 _

/-- C7 counterexample: the store key-sanitization function
(ContextStorage.sanitizeBranchName) does not strip control characters,
so on the branch name a,U+0001,b it returns the input unchanged while
the claimed contract requires the control character to be removed. -/
theorem c7_counterexample :
    sanitizeBranchName ['a', Char.ofNat 1, 'b'] = ['a', Char.ofNat 1, 'b'] ∧
    specSanitize ['a', Char.ofNat 1, 'b'] = ['a', 'b'] ∧
    sanitizeBranchName ['a', Char.ofNat 1, 'b'] ≠
      specSanitize ['a', Char.ofNat 1, 'b'] := by
  refine ⟨by decide, by decide, by decide⟩

/-- C7 amended: the full claimed contract (replace the nine forbidden
characters by underscore, collapse whitespace runs to a dash, strip
C0/C1 controls and private-use/specials ranges, truncate to 255
characters, trim) is implemented by GitOperations.sanitizeBranchName,
not by the store; the store key-sanitization function only replaces the
forbidden characters, collapses whitespace and truncates, and it is
deterministic and idempotent in the sense of the spec testable
property. -/
theorem c7_sanitize_contract :
    (∀ s, GitOperations.sanitizeBranchName s = specSanitize s) ∧
    (∀ s, sanitizeBranchName (sanitizeBranchName s) = sanitizeBranchName s) := by
  constructor
  · intro s; rfl
  · intro s
    conv_lhs => rw [sanitizeBranchName]
    rw [map_replaceForbidden_eq_self _ (sanitizeBranchName_no_forbidden s)]
    unfold collapseWs
    rw [collapseWsAux_eq_self _ (sanitizeBranchName_no_ws s)]
    exact List.take_of_length_le (sanitizeBranchName_length_le s)

/-- C9 counterexample: the storage layer persists a document verbatim
(see storage.ts lines 65-90), so a save of a document whose metadata
counts disagree with its payload persists the disagreement: here a
document with messageCount 5 and no messages sequence is saved and
loaded back unchanged, contradicting the claim that every document
persisted by a save has counts equal to the payload lengths. -/
theorem c9_counterexample :
    loadContext
      (saveContext 1 []
        ['b']
        { sampleDoc with metadata := { sampleDoc.metadata with messageCount := 5 } }
        [])
      ['b'] =
      some { sampleDoc with metadata := { sampleDoc.metadata with messageCount := 5 } } ∧
    ({ sampleDoc with metadata := { sampleDoc.metadata with messageCount := 5 } }
        : BranchContext).metadata.messageCount = 5 ∧
    ({ sampleDoc with metadata := { sampleDoc.metadata with messageCount := 5 } }
        : BranchContext).data.messages = none := by
  refine ⟨?_, rfl, rfl⟩
  unfold loadContext
  rw [saveContext_canonical]
  rfl

/-- C9 amended: the counts invariant holds of every document built by
ContextCollector.collectContext, which feeds every save in the plugin
flows: each of messageCount, todoCount and fileCount equals the length
of the corresponding payload sequence, with an absent sequence counting
as 0; the storage layer itself persists documents verbatim and does not
recompute metadata. -/
theorem c9_collector_counts (cb : List Char) (msgs : List Message)
    (tds : List Todo) (fls : List (List Char))
    (im it ifl : Bool) (desc nowIso platform : List Char) (len : Nat) :
    ((collectContextCore cb msgs tds fls im it ifl desc nowIso platform
        len).metadata.messageCount =
      (match (collectContextCore cb msgs tds fls im it ifl desc nowIso platform
          len).data.messages with
        | some l => l.length
        | none => 0)) ∧
    ((collectContextCore cb msgs tds fls im it ifl desc nowIso platform
        len).metadata.todoCount =
      (match (collectContextCore cb msgs tds fls im it ifl desc nowIso platform
          len).data.todos with
        | some l => l.length
        | none => 0)) ∧
    ((collectContextCore cb msgs tds fls im it ifl desc nowIso platform
        len).metadata.fileCount =
      (match (collectContextCore cb msgs tds fls im it ifl desc nowIso platform
          len).data.files with
        | some l => l.length
        | none => 0)) := by
  unfold collectContextCore
  refine ⟨?_, ?_, ?_⟩ <;> cases im <;> cases it <;> cases ifl <;> rfl

/-- C10: when the canonical file of a key exists but its read fails or
its content does not parse, getMetadata returns the Error sentinel
record without attempting backup recovery (the quantification over all
directory states includes states with valid backups); when no canonical
file exists it returns the distinct 0KB/Never sentinel. -/
theorem c10_getMetadata_sentinels :
    (∀ (rf : Bool) (fs : Fs) (b nowIso : List Char) (c : Content),
      fsGet fs (getBranchFile b) = some c →
      (rf = true ∨ parseContent c = none) →
      getMetadata rf fs b nowIso = errorMeta) ∧
    (∀ (rf : Bool) (fs : Fs) (b nowIso : List Char),
      fsGet fs (getBranchFile b) = none →
      getMetadata rf fs b nowIso = missingMeta) ∧
    errorMeta ≠ missingMeta := by
  refine ⟨?_, ?_, by decide⟩
  · intro rf fs b nowIso c hget hfail
    unfold getMetadata
    rw [hget]
    rcases hfail with hrf | hparse
    · simp [hrf]
    · by_cases hrf : rf
      · simp [hrf]
      · simp [hrf, hparse]
  · intro rf fs b nowIso hget
    unfold getMetadata
    rw [hget]

/-- C10 witness: a directory whose canonical file for branch b is
garbage while a perfectly valid backup exists still yields the Error
sentinel, and an empty directory yields the missing sentinel. -/
theorem c10_getMetadata_sentinels_witness :
    getMetadata false
      [(getBranchFile ['b'], .garbage ['z']),
        (getBackupFile ['b'] 5, .doc sampleDoc)] ['b'] [] = errorMeta ∧
    getMetadata false [] ['b'] [] = missingMeta :=
  ⟨c10_getMetadata_sentinels.1 false
      [(getBranchFile ['b'], .garbage ['z']),
        (getBackupFile ['b'] 5, .doc sampleDoc)] ['b'] []
      (.garbage ['z']) (by decide) (Or.inr rfl),
   c10_getMetadata_sentinels.2.1 false [] ['b'] [] rfl⟩

/-! Structure of the directory after a pruning pass. -/

theorem foldl_fsDelete_eq_filter :
    ∀ (ns : List FName) (fs : Fs),
      ns.foldl fsDelete fs = fs.filter (fun p => !(ns.contains p.1)) := by
  intro ns
  induction ns with
  | nil =>
    intro fs
    simp
  | cons d ds ih =>
    intro fs
    simp only [List.foldl_cons]
    rw [ih (fsDelete fs d)]
    unfold fsDelete
    rw [List.filter_filter]
    apply List.filter_congr
    intro p _
    by_cases hp : p.1 = d
    · simp [hp]
    · simp [hp]

theorem map_fst_filter_fst (q : FName → Bool) :
    ∀ fs : Fs, (fs.filter (fun p => q p.1)).map Prod.fst =
      (fs.map Prod.fst).filter q := by
  intro fs
  induction fs with
  | nil => rfl
  | cons p ps ih =>
    by_cases hp : q p.1
    · simp only [List.filter_cons, List.map_cons]
      rw [if_pos hp, if_pos hp]
      simp only [List.map_cons, ih]
    · simp only [List.filter_cons, List.map_cons]
      rw [if_neg hp, if_neg hp]
      exact ih

theorem cleanOldBackups_eq_filter (b : List Char) (fs : Fs) :
    cleanOldBackups b fs =
      fs.filter (fun p =>
        !((((sortedBackupEntries fs b).drop 5).map Prod.fst).contains p.1)) := by
  unfold cleanOldBackups
  rw [← List.foldl_map Prod.fst fsDelete]
  exact foldl_fsDelete_eq_filter _ fs

theorem map_fst_backupEntries (fs : Fs) (b : List Char) :
    (backupEntries fs b).map Prod.fst = backupNames fs b := by
  unfold backupEntries
  induction backupNames fs b with
  | nil => rfl
  | cons n ns ih =>
    simp only [List.map_cons]
    rw [ih]

theorem map_fst_sortedBackupEntries_perm (fs : Fs) (b : List Char) :
    ((sortedBackupEntries fs b).map Prod.fst).Perm (backupNames fs b) := by
  rw [← map_fst_backupEntries fs b]
  exact (List.perm_insertionSort tsGe (backupEntries fs b)).map Prod.fst

theorem backupNames_cleanOldBackups (b : List Char) (fs : Fs) :
    backupNames (cleanOldBackups b fs) b =
      (backupNames fs b).filter (fun n =>
        !((((sortedBackupEntries fs b).drop 5).map Prod.fst).contains n)) := by
  rw [cleanOldBackups_eq_filter]
  unfold backupNames
  rw [map_fst_filter_fst
    (fun n => !((((sortedBackupEntries fs b).drop 5).map Prod.fst).contains n)) fs]
  rw [List.filter_filter, List.filter_filter]
  apply List.filter_congr
  intro n _
  exact Bool.and_comm _ _

/-- C3 counterexample: with a configuration whose maxBackups is 3 and a
directory holding seven backups of branch b, the pruning step of the
store still leaves five backups (the constant hardcoded at storage.ts
line 165), not at most three as the claim requires of the configured
retention count; the default configuration happens to also be 5. -/
theorem c3_counterexample :
    ¬ ((backupNames (cleanOldBackups ['b'] backupsSevenFs) ['b']).length ≤
        ({ storage := { maxBackups := 3, retentionDays := 90 } }
          : PluginConfig).storage.maxBackups) ∧
    defaultConfig.storage.maxBackups = 5 := by
  refine ⟨by decide, rfl⟩

/-- C3 amended: the pruning step of save orders the key backups by
embedded timestamp descending and deletes all but the five newest, so
at most 5 backups remain; the bound is the hardcoded constant 5 of
storage.ts line 165 (equal to the default configuration value), and the
configured storage.maxBackups is never consulted by the store. -/
theorem c3_prune_bound (b : List Char) (fs : Fs)
    (hN : (fs.map Prod.fst).Nodup) :
    (backupNames (cleanOldBackups b fs) b).Perm
      (((sortedBackupEntries fs b).take 5).map Prod.fst) ∧
    (backupNames (cleanOldBackups b fs) b).length ≤ 5 := by
  have hsplit : (((sortedBackupEntries fs b).take 5).map Prod.fst) ++
      (((sortedBackupEntries fs b).drop 5).map Prod.fst) =
      (sortedBackupEntries fs b).map Prod.fst := by
    rw [← List.map_append, List.take_append_drop]
  have hperm : (backupNames fs b).Perm
      ((((sortedBackupEntries fs b).take 5).map Prod.fst) ++
        (((sortedBackupEntries fs b).drop 5).map Prod.fst)) := by
    rw [hsplit]
    exact (map_fst_sortedBackupEntries_perm fs b).symm
  have hnodupB : (backupNames fs b).Nodup := List.Nodup.filter _ hN
  have hnodupKD := hperm.nodup hnodupB
  have hdisj := (List.nodup_append.mp hnodupKD).2.2
  have hP : (backupNames (cleanOldBackups b fs) b).Perm
      (((sortedBackupEntries fs b).take 5).map Prod.fst) := by
    rw [backupNames_cleanOldBackups]
    have h1 := hperm.filter
      (fun n => !((((sortedBackupEntries fs b).drop 5).map Prod.fst).contains n))
    have h2 : ((((sortedBackupEntries fs b).take 5).map Prod.fst) ++
        (((sortedBackupEntries fs b).drop 5).map Prod.fst)).filter
          (fun n => !((((sortedBackupEntries fs b).drop 5).map Prod.fst).contains n)) =
        (((sortedBackupEntries fs b).take 5).map Prod.fst) := by
      rw [List.filter_append]
      have hK : (((sortedBackupEntries fs b).take 5).map Prod.fst).filter
          (fun n => !((((sortedBackupEntries fs b).drop 5).map Prod.fst).contains n)) =
          (((sortedBackupEntries fs b).take 5).map Prod.fst) := by
        apply List.filter_eq_self.mpr
        intro a ha
        have hnotin : a ∉ (((sortedBackupEntries fs b).drop 5).map Prod.fst) :=
          fun hD => hdisj ha hD
        cases hc : (((sortedBackupEntries fs b).drop 5).map Prod.fst).contains a
        · rfl
        · exact absurd (List.elem_iff.mp hc) hnotin
      have hD : ((((sortedBackupEntries fs b).drop 5).map Prod.fst)).filter
          (fun n => !((((sortedBackupEntries fs b).drop 5).map Prod.fst).contains n)) =
          [] := by
        apply List.filter_eq_nil_iff.mpr
        intro a ha
        have hca : ((((sortedBackupEntries fs b).drop 5).map Prod.fst)).contains a =
            true := List.elem_iff.mpr ha
        show ¬ (!((((sortedBackupEntries fs b).drop 5).map Prod.fst).contains a)) = true
        rw [hca]
        decide
      rw [hK, hD, List.append_nil]
    rw [h2] at h1
    exact h1
  refine ⟨hP, ?_⟩
  rw [hP.length_eq, List.length_map]
  exact List.length_take_le 5 _

/-- C3 witness: on the concrete directory with seven backups, pruning
leaves exactly the five newest names. -/
theorem c3_prune_bound_witness :
    (backupNames (cleanOldBackups ['b'] backupsSevenFs) ['b']).Perm
      (((sortedBackupEntries backupsSevenFs ['b']).take 5).map Prod.fst) ∧
    (backupNames (cleanOldBackups ['b'] backupsSevenFs) ['b']).length ≤ 5 :=
  c3_prune_bound ['b'] backupsSevenFs (by decide)

/-! Stability of the canonical path through backup creation and
pruning. -/

theorem mem_sortedBackupEntries {fs : Fs} {b : List Char}
    {e : FName × Nat} (he : e ∈ sortedBackupEntries fs b) :
    isBackupFileOf b e.1 = true := by
  have he2 : e ∈ backupEntries fs b :=
    (List.perm_insertionSort tsGe (backupEntries fs b)).subset he
  rcases List.mem_map.mp he2 with ⟨n, hn, hne⟩
  have := List.of_mem_filter hn
  rw [← hne]
  exact this

theorem isBackup_ne_canon {b : List Char} {n : FName}
    (h : isBackupFileOf b n = true) : n ≠ getBranchFile b := by
  intro hEq
  rw [hEq, not_isBackupFileOf_canon] at h
  exact Bool.noConfusion h

theorem getLastD_mem_or {α : Type} (l : List α) (d : α) :
    l.getLastD d = d ∨ l.getLastD d ∈ l := by
  induction l generalizing d with
  | nil => exact Or.inl rfl
  | cons a l ih =>
    rw [List.getLastD_cons]
    rcases ih a with h | h
    · exact Or.inr (by rw [h]; exact List.mem_cons_self _ _)
    · exact Or.inr (List.mem_cons_of_mem _ h)

theorem foldDeleteStates_stable (target : FName) :
    ∀ (es : List (FName × Nat)) (fs : Fs), (∀ e ∈ es, e.1 ≠ target) →
      ∀ s ∈ foldDeleteStates fs es, fsGet s target = fsGet fs target := by
  intro es
  induction es with
  | nil => intro fs _ s hs; simp [foldDeleteStates] at hs
  | cons e es ih =>
    intro fs h s hs
    have hne : target ≠ e.1 := Ne.symm (h e (List.mem_cons_self _ _))
    rcases List.mem_cons.mp hs with hs | hs
    · rw [hs]
      exact fsGet_fsDelete_ne fs hne
    · rw [ih (fsDelete fs e.1) (fun x hx => h x (List.mem_cons_of_mem _ hx)) s hs]
      exact fsGet_fsDelete_ne fs hne

theorem cleanOldBackupsStates_stable (b : List Char) (fs : Fs) :
    ∀ s ∈ cleanOldBackupsStates b fs,
      fsGet s (getBranchFile b) = fsGet fs (getBranchFile b) := by
  intro s hs
  unfold cleanOldBackupsStates at hs
  refine foldDeleteStates_stable (getBranchFile b) _ fs ?_ s hs
  intro e he
  exact isBackup_ne_canon (mem_sortedBackupEntries (List.drop_subset _ _ he))

theorem createBackupStates_stable (time : Nat) (b : List Char) (fs : Fs) :
    ∀ s ∈ createBackupStates time b (getBranchFile b) fs,
      fsGet s (getBranchFile b) = fsGet fs (getBranchFile b) := by
  intro s hs
  unfold createBackupStates at hs
  cases h : fsGet fs (getBranchFile b) with
  | none => rw [h] at hs; simp at hs
  | some c =>
    rw [h] at hs
    have hset : fsGet (fsSet fs (getBackupFile b time) c) (getBranchFile b) =
        fsGet fs (getBranchFile b) :=
      fsGet_fsSet_ne fs c (getBranchFile_ne_getBackupFile b time)
    rcases List.mem_cons.mp hs with hs | hs
    · rw [hs, hset, h]
    · rw [cleanOldBackupsStates_stable b _ s hs, hset, h]

theorem foldDeleteStates_getLastD :
    ∀ (es : List (FName × Nat)) (fs : Fs),
      (foldDeleteStates fs es).getLastD fs =
        es.foldl (fun acc e => fsDelete acc e.1) fs := by
  intro es
  induction es with
  | nil => intro fs; rfl
  | cons e es ih =>
    intro fs
    simp only [foldDeleteStates, List.foldl_cons]
    rw [List.getLastD_cons]
    exact ih _

theorem createBackupStates_getLastD (time : Nat) (b : List Char)
    (fp : FName) (fs : Fs) :
    (createBackupStates time b fp fs).getLastD fs = createBackup time b fp fs := by
  unfold createBackupStates createBackup
  cases h : fsGet fs fp with
  | none => rfl
  | some c =>
    rw [List.getLastD_cons]
    unfold cleanOldBackupsStates cleanOldBackups
    rw [foldDeleteStates_getLastD]

theorem createBackup_stable (time : Nat) (b : List Char) (fs : Fs) :
    fsGet (createBackup time b (getBranchFile b) fs) (getBranchFile b) =
      fsGet fs (getBranchFile b) := by
  rw [← createBackupStates_getLastD]
  rcases getLastD_mem_or (createBackupStates time b (getBranchFile b) fs) fs with
    h | h
  · rw [h]
  · exact createBackupStates_stable time b fs _ h

theorem fsGet_unlinkQuiet_ne (env : FsEnv) (fs : Fs) {n m : FName}
    (h : m ≠ n) : fsGet (unlinkQuiet env fs n) m = fsGet fs m := by
  unfold unlinkQuiet
  by_cases hf : env.unlinkFails n
  · rw [if_pos hf]
  · rw [if_neg hf]
    exact fsGet_fsDelete_ne fs h

theorem foldUnlinkQuiet_stable (env : FsEnv) (target : FName) :
    ∀ (es : List (FName × Nat)) (fs : Fs), (∀ e ∈ es, e.1 ≠ target) →
      fsGet (es.foldl (fun acc e => unlinkQuiet env acc e.1) fs) target =
        fsGet fs target := by
  intro es
  induction es with
  | nil => intro fs _; rfl
  | cons e es ih =>
    intro fs h
    simp only [List.foldl_cons]
    rw [ih _ (fun x hx => h x (List.mem_cons_of_mem _ hx))]
    exact fsGet_unlinkQuiet_ne env fs
      (Ne.symm (h e (List.mem_cons_self _ _)))

theorem cleanOldBackupsE_stable (env : FsEnv) (b : List Char) (fs : Fs) :
    fsGet (cleanOldBackupsE env b fs) (getBranchFile b) =
      fsGet fs (getBranchFile b) := by
  unfold cleanOldBackupsE
  by_cases hd : env.readdirFails
  · rw [if_pos hd]
  · rw [if_neg hd]
    refine foldUnlinkQuiet_stable env _ _ fs ?_
    intro e he
    exact isBackup_ne_canon (mem_sortedBackupEntries (List.drop_subset _ _ he))

theorem createBackupE_stable (env : FsEnv) (time : Nat) (b : List Char)
    (fs : Fs) :
    fsGet (createBackupE env time b (getBranchFile b) fs) (getBranchFile b) =
      fsGet fs (getBranchFile b) := by
  unfold createBackupE
  cases h : fsGet fs (getBranchFile b) with
  | none => exact h
  | some c =>
    show fsGet (if env.copyFails (getBackupFile b time) = true then fs
        else cleanOldBackupsE env b (fsSet fs (getBackupFile b time) c))
        (getBranchFile b) = some c
    by_cases hc : env.copyFails (getBackupFile b time)
    · rw [if_pos hc]
      exact h
    · rw [if_neg hc, cleanOldBackupsE_stable,
        fsGet_fsSet_ne fs c (getBranchFile_ne_getBackupFile b time)]
      exact h

/-- C2: during a save the canonical file of the key is mutated only by
the final atomic rename of the fully written temporary file: every
intermediate directory state of the save still holds the previous
content of the canonical path, the last state is the result of the
save, and there the canonical path holds the new complete document;
moreover a failed save (mkdir, write or rename failure) leaves the
canonical path with its previous content.  A reader therefore observes
either the previous complete document or the new complete document,
never a truncated or mixed serialization. -/
theorem c2_atomic_save (time : Nat) (salt b : List Char)
    (ctx : BranchContext) (fs : Fs) (env : FsEnv) :
    statesStableAt ((saveContextTrace time salt b ctx fs).dropLast)
        (getBranchFile b) (fsGet fs (getBranchFile b)) = true ∧
    (saveContextTrace time salt b ctx fs).getLast? =
      some (saveContext time salt b ctx fs) ∧
    fsGet (saveContext time salt b ctx fs) (getBranchFile b) =
      some (.doc ctx) ∧
    ((saveContextE env time salt b ctx fs).1 ≠ none →
      fsGet (saveContextE env time salt b ctx fs).2 (getBranchFile b) =
        fsGet fs (getBranchFile b)) := by
  have hpreLast : (if fsExists fs (getBranchFile b) then
      createBackupStates time b (getBranchFile b) fs else []).getLastD fs =
      (if fsExists fs (getBranchFile b) then
        createBackup time b (getBranchFile b) fs else fs) := by
    by_cases hex : fsExists fs (getBranchFile b)
    · rw [if_pos hex, if_pos hex]
      exact createBackupStates_getLastD time b _ fs
    · rw [if_neg hex, if_neg hex]
      rfl
  have hstable1 : fsGet ((if fsExists fs (getBranchFile b) then
      createBackupStates time b (getBranchFile b) fs else []).getLastD fs)
      (getBranchFile b) = fsGet fs (getBranchFile b) := by
    by_cases hex : fsExists fs (getBranchFile b)
    · rw [if_pos hex]
      rcases getLastD_mem_or
          (createBackupStates time b (getBranchFile b) fs) fs with h | h
      · rw [h]
      · exact createBackupStates_stable time b fs _ h
    · rw [if_neg hex]
      rfl
  refine ⟨?_, ?_, ?_, ?_⟩
  · unfold saveContextTrace statesStableAt
    have hsplit : ∀ (l : List Fs) (x y : Fs), l ++ [x, y] = (l ++ [x]) ++ [y] := by
      intro l x y; simp
    rw [hsplit, List.dropLast_concat]
    rw [List.all_eq_true]
    intro s hs
    rw [decide_eq_true_eq]
    rcases List.mem_append.mp hs with hs | hs
    · by_cases hex : fsExists fs (getBranchFile b)
      · rw [if_pos hex] at hs
        exact createBackupStates_stable time b fs s hs
      · rw [if_neg hex] at hs
        simp at hs
    · rw [List.mem_singleton] at hs
      rw [hs]
      rw [fsGet_fsSet_ne _ _ (Ne.symm (tempFileName_ne_getBranchFile b time salt))]
      exact hstable1
  · unfold saveContextTrace saveContext
    have hsplit : ∀ (l : List Fs) (x y : Fs), l ++ [x, y] = (l ++ [x]) ++ [y] := by
      intro l x y; simp
    rw [hsplit, List.getLast?_concat, hpreLast]
  · exact saveContext_canonical time salt b ctx fs
  · intro herr
    unfold saveContextE
    unfold saveContextE at herr
    by_cases hm : env.mkdirFails
    · rw [if_pos hm]
    · rw [if_neg hm]
      rw [if_neg hm] at herr
      have hstableE : fsGet (if fsExists fs (getBranchFile b) then
          createBackupE env time b (getBranchFile b) fs else fs)
          (getBranchFile b) = fsGet fs (getBranchFile b) := by
        by_cases hex : fsExists fs (getBranchFile b)
        · rw [if_pos hex]
          exact createBackupE_stable env time b fs
        · rw [if_neg hex]
      by_cases hw : env.writeFails (tempFileName b time salt)
      · simp only [hw, if_true]
        rw [fsGet_unlinkQuiet_ne env _
          (Ne.symm (tempFileName_ne_getBranchFile b time salt))]
        exact hstableE
      · simp only [hw, Bool.false_eq_true, if_false]
        by_cases hr : env.renameFails (getBranchFile b)
        · simp only [hr, if_true]
          rw [fsGet_unlinkQuiet_ne env _
            (Ne.symm (tempFileName_ne_getBranchFile b time salt))]
          rw [fsGet_fsSet_ne _ _
            (Ne.symm (tempFileName_ne_getBranchFile b time salt))]
          exact hstableE
        · simp only [hw, hr, Bool.false_eq_true, if_false] at herr
          exact absurd rfl herr

/-- C2 witness: with an environment in which the temp-file write fails,
the failed save leaves the canonical path unchanged, while the
successful save stores the new document. -/
theorem c2_atomic_save_witness :
    fsGet (saveContextE
        { okEnv with writeFails := fun n => n = tempFileName ['b'] 1 [] }
        1 [] ['b'] sampleDoc [(getBranchFile ['b'], .doc sampleDoc2)]).2
      (getBranchFile ['b']) =
      fsGet [(getBranchFile ['b'], .doc sampleDoc2)] (getBranchFile ['b']) ∧
    fsGet (saveContext 1 [] ['b'] sampleDoc
        [(getBranchFile ['b'], .doc sampleDoc2)]) (getBranchFile ['b']) =
      some (.doc sampleDoc) :=
  ⟨(c2_atomic_save 1 [] ['b'] sampleDoc [(getBranchFile ['b'], .doc sampleDoc2)]
      { okEnv with writeFails := fun n => n = tempFileName ['b'] 1 [] }).2.2.2
      (by decide),
   (c2_atomic_save 1 [] ['b'] sampleDoc [(getBranchFile ['b'], .doc sampleDoc2)]
      { okEnv with writeFails := fun n => n = tempFileName ['b'] 1 [] }).2.2.1⟩

/-! Recovery order: the first parsable backup in newest-first order is
the parsable backup with the maximal embedded timestamp. -/

theorem findSome_first_max (fs : Fs) (d₀ : BranchContext) :
    ∀ (S : List (FName × Nat)) (e₀ : FName × Nat),
      S.Sorted tsGe →
      S.Pairwise (fun p q => p.2 ≠ q.2) →
      e₀ ∈ S →
      ((fsGet fs e₀.1).bind parseContent) = some d₀ →
      (∀ e ∈ S, ((fsGet fs e.1).bind parseContent) ≠ none → e.2 ≤ e₀.2) →
      S.findSome? (fun e => (fsGet fs e.1).bind parseContent) = some d₀ := by
  intro S
  induction S with
  | nil => intro e₀ _ _ hmem; simp at hmem
  | cons h t ih =>
    intro e₀ hsorted hdist hmem hp₀ hmax
    rw [List.sorted_cons] at hsorted
    rw [List.pairwise_cons] at hdist
    cases hP : (fsGet fs h.1).bind parseContent with
    | some d =>
      rw [List.findSome?_cons, hP]
      rcases List.mem_cons.mp hmem with he | he
      · rw [← he] at hP
        rw [hP] at hp₀
        exact hp₀
      · exfalso
        have hts1 : e₀.2 ≤ h.2 := hsorted.1 e₀ he
        have hts2 : h.2 ≤ e₀.2 :=
          hmax h (List.mem_cons_self _ _) (by rw [hP]; exact Option.noConfusion)
        exact hdist.1 e₀ he (Nat.le_antisymm hts2 hts1)
    | none =>
      rw [List.findSome?_cons, hP]
      have he : e₀ ∈ t := by
        rcases List.mem_cons.mp hmem with he | he
        · exfalso
          rw [← he] at hP
          rw [hP] at hp₀
          exact Option.noConfusion hp₀
        · exact he
      exact ih e₀ hsorted.2 hdist.2 he hp₀
        (fun e het => hmax e (List.mem_cons_of_mem _ het))

/-- C5: when the canonical file of a key exists but does not parse,
load walks the key backups sorted newest timestamp first and returns
the content of the first backup that parses — with distinct embedded
timestamps, the parsable backup with the newest timestamp — and
returns absent, without throwing, when no backup parses. -/
theorem c5_backup_recovery (fs : Fs) (b : List Char) (g : List Char)
    (hcanon : fsGet fs (getBranchFile b) = some (.garbage g))
    (hdistinct : (backupEntries fs b).Pairwise (fun p q => p.2 ≠ q.2)) :
    ((∀ n ∈ backupNames fs b, ((fsGet fs n).bind parseContent) = none) →
      loadContext fs b = none) ∧
    (∀ (n₀ : FName) (d₀ : BranchContext), n₀ ∈ backupNames fs b →
      fsGet fs n₀ = some (.doc d₀) →
      (∀ n ∈ backupNames fs b, ((fsGet fs n).bind parseContent) ≠ none →
        extractTs n ≤ extractTs n₀) →
      loadContext fs b = some d₀) := by
  have hload : loadContext fs b = restoreFromBackup fs b := by
    unfold loadContext
    rw [hcanon]
    rfl
  have hmemS : ∀ e ∈ sortedBackupEntries fs b,
      e.1 ∈ backupNames fs b ∧ e.2 = extractTs e.1 := by
    intro e he
    have he2 : e ∈ backupEntries fs b :=
      (List.perm_insertionSort tsGe (backupEntries fs b)).subset he
    rcases List.mem_map.mp he2 with ⟨n, hn, hne⟩
    rw [← hne]
    exact ⟨hn, rfl⟩
  constructor
  · intro hnone
    rw [hload]
    unfold restoreFromBackup
    apply List.findSome?_eq_none_iff.mpr
    intro e he
    exact hnone e.1 (hmemS e he).1
  · intro n₀ d₀ hn₀ hd₀ hmax
    rw [hload]
    unfold restoreFromBackup
    apply findSome_first_max fs d₀ _ (n₀, extractTs n₀)
    · exact List.sorted_insertionSort tsGe _
    · exact ((List.perm_insertionSort tsGe (backupEntries fs b)).pairwise_iff
        (fun hxy => Ne.symm hxy)).mpr hdistinct
    · rw [sortedBackupEntries]
      rw [(List.perm_insertionSort tsGe (backupEntries fs b)).mem_iff]
      exact List.mem_map_of_mem _ hn₀
    · rw [hd₀]
      rfl
    · intro e he hne
      rcases hmemS e he with ⟨hmem1, hmem2⟩
      rw [hmem2]
      exact hmax e.1 hmem1 hne

/-- C5 witness: a directory whose canonical file is garbage and whose
backups are a parsable newest document, an unparsable middle one and a
parsable older one recovers the newest parsable document; and a
directory with only unparsable backups loads as absent. -/
theorem c5_backup_recovery_witness :
    loadContext
      [(getBranchFile ['b'], .garbage ['z']),
        (getBackupFile ['b'] 5, .doc sampleDoc2),
        (getBackupFile ['b'] 7, .garbage ['y']),
        (getBackupFile ['b'] 3, .doc sampleDoc)] ['b'] = some sampleDoc2 ∧
    loadContext
      [(getBranchFile ['b'], .garbage ['z']),
        (getBackupFile ['b'] 4, .garbage ['y'])] ['b'] = none :=
  ⟨(c5_backup_recovery _ ['b'] ['z'] (by decide) (by decide)).2
      (getBackupFile ['b'] 5) sampleDoc2 (by decide) (by decide) (by decide),
   (c5_backup_recovery _ ['b'] ['z'] (by decide) (by decide)).1 (by decide)⟩

/-! Delete completeness. -/

theorem fsGet_eq_none_iff (fs : Fs) (n : FName) :
    fsGet fs n = none ↔ ∀ p ∈ fs, p.1 ≠ n := by
  unfold fsGet
  rw [Option.map_eq_none']
  rw [List.find?_eq_none]
  constructor
  · intro h p hp
    have := h p hp
    simpa using this
  · intro h p hp
    simpa using h p hp

theorem mem_listBranches (x : List Char) :
    ∀ X : Fs, x ∈ listBranches X ↔
      ∃ p, p ∈ X ∧
        (jsonSuffix.isSuffixOf p.1 && !(containsSub backupDot p.1)) = true ∧
        ∃ d, parseContent p.2 = some d ∧ d.branch = x := by
  intro X
  induction X with
  | nil =>
    constructor
    · intro hx
      exact absurd hx (List.not_mem_nil x)
    · rintro ⟨q, hq, _⟩
      exact absurd hq (List.not_mem_nil q)
  | cons p ps ih =>
    unfold listBranches at ih ⊢
    rw [List.foldr_cons]
    by_cases hc : (jsonSuffix.isSuffixOf p.1 && !(containsSub backupDot p.1)) = true
    · rw [if_pos hc]
      cases hp : parseContent p.2 with
      | some d =>
        constructor
        · intro hx
          rcases List.mem_cons.mp hx with hx | hx
          · exact ⟨p, List.mem_cons_self _ _, hc, d, hp, hx.symm⟩
          · rcases ih.mp hx with ⟨q, hq, hq2, d2, hq3, hq4⟩
            exact ⟨q, List.mem_cons_of_mem _ hq, hq2, d2, hq3, hq4⟩
        · rintro ⟨q, hq, hq2, d2, hq3, hq4⟩
          rcases List.mem_cons.mp hq with hq | hq
          · subst hq
            rw [hp] at hq3
            cases hq3
            rw [← hq4]
            exact List.mem_cons_self _ _
          · exact List.mem_cons_of_mem _ (ih.mpr ⟨q, hq, hq2, d2, hq3, hq4⟩)
      | none =>
        constructor
        · intro hx
          rcases ih.mp hx with ⟨q, hq, hq2, d2, hq3, hq4⟩
          exact ⟨q, List.mem_cons_of_mem _ hq, hq2, d2, hq3, hq4⟩
        · rintro ⟨q, hq, hq2, d2, hq3, hq4⟩
          rcases List.mem_cons.mp hq with hq | hq
          · subst hq
            rw [hp] at hq3
            exact Option.noConfusion hq3
          · exact ih.mpr ⟨q, hq, hq2, d2, hq3, hq4⟩
    · rw [if_neg hc]
      constructor
      · intro hx
        rcases ih.mp hx with ⟨q, hq, hq2, d2, hq3, hq4⟩
        exact ⟨q, List.mem_cons_of_mem _ hq, hq2, d2, hq3, hq4⟩
      · rintro ⟨q, hq, hq2, d2, hq3, hq4⟩
        rcases List.mem_cons.mp hq with hq | hq
        · subst hq
          exact absurd hq2 hc
        · exact ih.mpr ⟨q, hq, hq2, d2, hq3, hq4⟩

theorem deleteContext_subset (b : List Char) (fs : Fs) :
    ∀ p ∈ deleteContext b fs, p ∈ fs := by
  intro p hp
  unfold deleteContext at hp
  rw [foldl_fsDelete_eq_filter] at hp
  have hp1 := List.mem_of_mem_filter hp
  by_cases hex : fsExists fs (getBranchFile b)
  · rw [if_pos hex] at hp1
    exact List.mem_of_mem_filter hp1
  · rw [if_neg hex] at hp1
    exact hp1

theorem fsGet_deleteContext_canon (b : List Char) (fs : Fs) :
    fsGet (deleteContext b fs) (getBranchFile b) = none := by
  unfold deleteContext
  rw [foldl_fsDelete_eq_filter]
  rw [fsGet_eq_none_iff]
  intro p hp
  have hp1 := List.mem_of_mem_filter hp
  have h1 : fsGet (if fsExists fs (getBranchFile b) then
      fsDelete fs (getBranchFile b) else fs) (getBranchFile b) = none := by
    by_cases hex : fsExists fs (getBranchFile b)
    · rw [if_pos hex]
      exact fsGet_fsDelete_self fs _
    · rw [if_neg hex]
      unfold fsExists at hex
      cases hget : fsGet fs (getBranchFile b) with
      | none => rfl
      | some c => rw [hget] at hex; exact absurd rfl hex
  exact (fsGet_eq_none_iff _ _).mp h1 p hp1

theorem backupNames_deleteContext (b : List Char) (fs : Fs) :
    backupNames (deleteContext b fs) b = [] := by
  unfold deleteContext
  rw [foldl_fsDelete_eq_filter]
  set fs1 := if fsExists fs (getBranchFile b) then
    fsDelete fs (getBranchFile b) else fs with hfs1
  set D := backupNames fs1 b with hD
  unfold backupNames
  rw [map_fst_filter_fst (fun n => !(D.contains n)) fs1]
  apply List.filter_eq_nil_iff.mpr
  intro n hn
  have hn1 := List.mem_of_mem_filter hn
  have hn2 := List.of_mem_filter hn
  intro hB
  have hmem : n ∈ D := by
    rw [hD]
    unfold backupNames
    exact List.mem_filter.mpr ⟨hn1, hB⟩
  have hcon : D.contains n = true := List.elem_iff.mpr hmem
  rw [hcon] at hn2
  exact Bool.noConfusion hn2

/-- C8: after deleting a key, load for that key returns absent, the key
is excluded from the branch listing (assuming every stored document
carrying that branch name lives under the key canonical or backup
names, which every save flow maintains), and no backup file for the key
remains; deleting a key with no canonical file and no backups is a
no-op, and delete completes without error for every environment. -/
theorem c8_delete_completeness (b : List Char) (fs : Fs) (env : FsEnv) :
    loadContext (deleteContext b fs) b = none ∧
    backupNames (deleteContext b fs) b = [] ∧
    ((∀ p ∈ fs, ∀ d, parseContent p.2 = some d → d.branch = b →
        (p.1 = getBranchFile b ∨ isBackupFileOf b p.1 = true)) →
      b ∉ listBranches (deleteContext b fs)) ∧
    (fsExists fs (getBranchFile b) = false → backupNames fs b = [] →
      deleteContext b fs = fs) ∧
    (deleteContextE env b fs).1 = none := by
  refine ⟨?_, backupNames_deleteContext b fs, ?_, ?_, ?_⟩
  · unfold loadContext
    rw [fsGet_deleteContext_canon]
  · intro hOwn hmem
    rcases (mem_listBranches b _).mp hmem with ⟨p, hp, _, d, hparse, hbr⟩
    have hpfs := deleteContext_subset b fs p hp
    rcases hOwn p hpfs d hparse hbr with hcanon | hback
    · have hnone := fsGet_deleteContext_canon b fs
      rw [fsGet_eq_none_iff] at hnone
      exact hnone p hp hcanon
    · have hempty := backupNames_deleteContext b fs
      have hmemB : p.1 ∈ backupNames (deleteContext b fs) b :=
        List.mem_filter.mpr ⟨List.mem_map_of_mem Prod.fst hp, hback⟩
      rw [hempty] at hmemB
      exact absurd hmemB (List.not_mem_nil _)
  · intro hex hback
    unfold deleteContext
    simp only [hex, Bool.false_eq_true, if_false, hback, List.foldl_nil]
  · unfold deleteContextE
    by_cases hd : env.readdirFails
    · simp [hd]
    · simp [hd]

/-- C8 witness: deleting branch b from a directory holding its
canonical file, one of its backups and an unrelated branch document
leaves a listing without b, and deleting from an empty directory is a
no-op. -/
theorem c8_delete_completeness_witness :
    loadContext (deleteContext ['b']
      [(getBranchFile ['b'], .doc sampleDoc),
        (getBackupFile ['b'] 3, .doc sampleDoc),
        (getBranchFile ['c'], .doc sampleDoc2)]) ['b'] = none ∧
    ['b'] ∉ listBranches (deleteContext ['b']
      [(getBranchFile ['b'], .doc sampleDoc),
        (getBackupFile ['b'] 3, .doc sampleDoc),
        (getBranchFile ['c'], .doc sampleDoc2)]) ∧
    deleteContext ['b'] [] = [] ∧
    (deleteContextE okEnv ['b'] []).1 = none :=
  ⟨(c8_delete_completeness ['b']
      [(getBranchFile ['b'], .doc sampleDoc),
        (getBackupFile ['b'] 3, .doc sampleDoc),
        (getBranchFile ['c'], .doc sampleDoc2)] okEnv).1,
   (c8_delete_completeness ['b']
      [(getBranchFile ['b'], .doc sampleDoc),
        (getBackupFile ['b'] 3, .doc sampleDoc),
        (getBranchFile ['c'], .doc sampleDoc2)] okEnv).2.2.1 (by decide),
   (c8_delete_completeness ['b'] [] okEnv).2.2.2.1 (by decide) (by decide),
   (c8_delete_completeness ['b'] [] okEnv).2.2.2.2⟩

/-! Exact directory shape across iterated saves. -/

theorem fsGet_cons_self (fs : Fs) (n : FName) (c : Content) :
    fsGet ((n, c) :: fs) n = some c := by
  simp [fsGet, List.find?_cons_of_pos]

theorem fsDelete_cons_eq (fs : Fs) (n : FName) (c : Content) :
    fsDelete ((n, c) :: fs) n = fsDelete fs n := by
  unfold fsDelete
  rw [List.filter_cons]
  rw [if_neg]
  simp

theorem fsDelete_cons_ne (fs : Fs) {n m : FName} (c : Content) (h : m ≠ n) :
    fsDelete ((m, c) :: fs) n = (m, c) :: fsDelete fs n := by
  unfold fsDelete
  rw [List.filter_cons]
  rw [if_pos]
  simp [h]

theorem fsDelete_eq_self (fs : Fs) (n : FName)
    (h : ∀ p ∈ fs, p.1 ≠ n) : fsDelete fs n = fs := by
  unfold fsDelete
  apply List.filter_eq_self.mpr
  intro p hp
  simp [h p hp]

theorem fsDelete_fsSet_self (fs : Fs) (n : FName) (c : Content) :
    fsDelete (fsSet fs n c) n = fsDelete fs n := by
  unfold fsSet
  rw [fsDelete_cons_eq]
  unfold fsDelete
  rw [List.filter_filter]
  apply List.filter_congr
  intro p _
  rw [Bool.and_self]

theorem retainedBackups_mem (ts : Nat → Nat) (ctx : Nat → BranchContext)
    (b : List Char) :
    ∀ k, ∀ p ∈ retainedBackups ts ctx b k,
      ∃ j, 2 ≤ j ∧ j ≤ k ∧ p = savedEntry ts ctx b j := by
  intro k
  induction k with
  | zero => intro p hp; simp [retainedBackups] at hp
  | succ k ih =>
    intro p hp
    unfold retainedBackups at hp
    by_cases hk : k = 0
    · rw [if_pos hk] at hp
      exact absurd hp (List.not_mem_nil p)
    · rw [if_neg hk] at hp
      have hp2 := List.take_subset 5 _ hp
      rcases List.mem_cons.mp hp2 with hp3 | hp3
      · exact ⟨k + 1, by omega, le_refl _, hp3⟩
      · rcases ih p hp3 with ⟨j, hj1, hj2, hj3⟩
        exact ⟨j, hj1, by omega, hj3⟩

theorem retainedBackups_length_le_five (ts : Nat → Nat)
    (ctx : Nat → BranchContext) (b : List Char) :
    ∀ k, (retainedBackups ts ctx b k).length ≤ 5 := by
  intro k
  cases k with
  | zero => simp [retainedBackups]
  | succ k =>
    unfold retainedBackups
    by_cases hk : k = 0
    · rw [if_pos hk]; simp
    · rw [if_neg hk]
      exact List.length_take_le 5 _

theorem retainedBackups_length_le (ts : Nat → Nat)
    (ctx : Nat → BranchContext) (b : List Char) :
    ∀ k, (retainedBackups ts ctx b k).length ≤ k - 1 := by
  intro k
  induction k with
  | zero => simp [retainedBackups]
  | succ k ih =>
    unfold retainedBackups
    by_cases hk : k = 0
    · rw [if_pos hk]; simp
    · rw [if_neg hk]
      have h1 := List.length_take_le 5
        (savedEntry ts ctx b (k + 1) :: retainedBackups ts ctx b k)
      have h2 : (savedEntry ts ctx b (k + 1) ::
          retainedBackups ts ctx b k).length =
          (retainedBackups ts ctx b k).length + 1 := by
        simp
      have h3 : (List.take 5 (savedEntry ts ctx b (k + 1) ::
          retainedBackups ts ctx b k)).length ≤
          (retainedBackups ts ctx b k).length + 1 := by
        rw [← h2]
        exact List.length_take_le' ..
      omega

theorem retainedBackups_explicit (ts : Nat → Nat)
    (ctx : Nat → BranchContext) (b : List Char) :
    ∀ k, 6 ≤ k → retainedBackups ts ctx b k =
      [savedEntry ts ctx b k, savedEntry ts ctx b (k - 1),
        savedEntry ts ctx b (k - 2), savedEntry ts ctx b (k - 3),
        savedEntry ts ctx b (k - 4)] := by
  intro k hk
  induction k with
  | zero => omega
  | succ k ih =>
    by_cases hk6 : 6 ≤ k
    · have ihk := ih hk6
      unfold retainedBackups
      rw [if_neg (by omega)]
      rw [ihk]
      have e1 : k + 1 - 2 = k - 1 := by omega
      have e2 : k + 1 - 3 = k - 2 := by omega
      have e3 : k + 1 - 4 = k - 3 := by omega
      have e4 : k + 1 - 1 = k := by omega
      rw [e1, e2, e3, e4]
      rfl
    · have hk5 : k = 5 := by omega
      subst hk5
      rfl

theorem retainedBackups_pairwise (ts : Nat → Nat)
    (ctx : Nat → BranchContext) (b : List Char) (hmono : StrictMono ts) :
    ∀ k, (retainedBackups ts ctx b k).Pairwise
      (fun p q => extractTs q.1 < extractTs p.1) := by
  intro k
  induction k with
  | zero => simp [retainedBackups]
  | succ k ih =>
    unfold retainedBackups
    by_cases hk : k = 0
    · rw [if_pos hk]; simp
    · rw [if_neg hk]
      apply List.Pairwise.sublist (List.take_sublist 5 _)
      rw [List.pairwise_cons]
      constructor
      · intro q hq
        rcases retainedBackups_mem ts ctx b k q hq with ⟨j, _, hj2, hj3⟩
        rw [hj3]
        unfold savedEntry
        rw [extractTs_getBackupFile, extractTs_getBackupFile]
        exact hmono (by omega)
      · exact ih

theorem cleanOldBackups_of_sorted (b : List Char) (fs : Fs)
    (hs : (backupEntries fs b).Sorted tsGe) :
    cleanOldBackups b fs =
      ((backupEntries fs b).drop 5).foldl (fun acc e => fsDelete acc e.1) fs := by
  unfold cleanOldBackups sortedBackupEntries
  rw [List.Sorted.insertionSort_eq hs]

theorem cleanOldBackups_eq_self (b : List Char) (fs : Fs)
    (hs : (backupEntries fs b).Sorted tsGe)
    (hlen : (backupEntries fs b).length ≤ 5) :
    cleanOldBackups b fs = fs := by
  rw [cleanOldBackups_of_sorted b fs hs]
  rw [List.drop_eq_nil_of_le hlen]
  rfl

theorem saveContext_step (ts : Nat → Nat) (salt : List Char)
    (ctx : Nat → BranchContext) (b : List Char) (k : Nat)
    (hmono : StrictMono ts) (hk : 1 ≤ k) :
    saveContext (ts (k + 1)) salt b (ctx (k + 1))
      ((getBranchFile b, .doc (ctx k)) :: retainedBackups ts ctx b k) =
    (getBranchFile b, .doc (ctx (k + 1))) :: retainedBackups ts ctx b (k + 1) := by
  have hBmem := retainedBackups_mem ts ctx b k
  have hBisB : ∀ p ∈ retainedBackups ts ctx b k, isBackupFileOf b p.1 = true := by
    intro p hp
    rcases hBmem p hp with ⟨j, _, _, hj3⟩
    rw [hj3]
    exact isBackupFileOf_getBackupFile b (ts j)
  have hBne_canon : ∀ p ∈ retainedBackups ts ctx b k, p.1 ≠ getBranchFile b := by
    intro p hp
    exact isBackup_ne_canon (hBisB p hp)
  have hBne_bn : ∀ p ∈ retainedBackups ts ctx b k,
      p.1 ≠ getBackupFile b (ts (k + 1)) := by
    intro p hp
    rcases hBmem p hp with ⟨j, _, hj2, hj3⟩
    rw [hj3]
    intro hEq
    have := getBackupFile_inj b hEq
    have := hmono.injective this
    omega
  have hBne_tmp : ∀ p ∈ retainedBackups ts ctx b k,
      p.1 ≠ tempFileName b (ts (k + 1)) salt := by
    intro p hp
    rcases hBmem p hp with ⟨j, _, _, hj3⟩
    rw [hj3]
    exact Ne.symm (tempFileName_ne_getBackupFile b (ts (k + 1)) (ts j) salt)
  have hex : fsExists ((getBranchFile b, Content.doc (ctx k)) ::
      retainedBackups ts ctx b k) (getBranchFile b) = true := by
    unfold fsExists
    rw [fsGet_cons_self]
    rfl
  have hdelbn : fsDelete ((getBranchFile b, Content.doc (ctx k)) ::
      retainedBackups ts ctx b k) (getBackupFile b (ts (k + 1))) =
      (getBranchFile b, Content.doc (ctx k)) :: retainedBackups ts ctx b k := by
    apply fsDelete_eq_self
    intro p hp
    rcases List.mem_cons.mp hp with hp | hp
    · rw [hp]
      exact getBranchFile_ne_getBackupFile b (ts (k + 1))
    · exact hBne_bn p hp
  have hcb : createBackup (ts (k + 1)) b (getBranchFile b)
      ((getBranchFile b, Content.doc (ctx k)) :: retainedBackups ts ctx b k) =
      cleanOldBackups b
        ((getBackupFile b (ts (k + 1)), Content.doc (ctx k)) ::
          (getBranchFile b, Content.doc (ctx k)) :: retainedBackups ts ctx b k) := by
    unfold createBackup
    rw [fsGet_cons_self]
    show cleanOldBackups b (fsSet _ _ _) = _
    unfold fsSet
    rw [hdelbn]
  have hnames : backupNames
      ((getBackupFile b (ts (k + 1)), Content.doc (ctx k)) ::
        (getBranchFile b, Content.doc (ctx k)) :: retainedBackups ts ctx b k) b =
      getBackupFile b (ts (k + 1)) ::
        (retainedBackups ts ctx b k).map Prod.fst := by
    unfold backupNames
    simp only [List.map_cons]
    rw [List.filter_cons, if_pos (isBackupFileOf_getBackupFile b (ts (k + 1)))]
    rw [List.filter_cons, if_neg (by simp [not_isBackupFileOf_canon])]
    congr 1
    apply List.filter_eq_self.mpr
    intro n hn
    rcases List.mem_map.mp hn with ⟨p, hp, hpn⟩
    rw [← hpn]
    exact hBisB p hp
  have hentries : backupEntries
      ((getBackupFile b (ts (k + 1)), Content.doc (ctx k)) ::
        (getBranchFile b, Content.doc (ctx k)) :: retainedBackups ts ctx b k) b =
      (getBackupFile b (ts (k + 1)), ts (k + 1)) ::
        ((retainedBackups ts ctx b k).map Prod.fst).map
          (fun n => (n, extractTs n)) := by
    unfold backupEntries
    rw [hnames, List.map_cons, extractTs_getBackupFile]
  have hSorted : (backupEntries
      ((getBackupFile b (ts (k + 1)), Content.doc (ctx k)) ::
        (getBranchFile b, Content.doc (ctx k)) :: retainedBackups ts ctx b k) b).Sorted
      tsGe := by
    rw [hentries]
    rw [List.sorted_cons]
    constructor
    · intro e he
      rcases List.mem_map.mp he with ⟨n, hn, hne⟩
      rcases List.mem_map.mp hn with ⟨p, hp, hpn⟩
      rcases hBmem p hp with ⟨j, _, hj2, hj3⟩
      rw [← hne]
      unfold tsGe
      show extractTs n ≤ ts (k + 1)
      rw [← hpn, hj3]
      show extractTs (getBackupFile b (ts j)) ≤ ts (k + 1)
      rw [extractTs_getBackupFile]
      exact le_of_lt (hmono (by omega))
    · show List.Pairwise tsGe
        (((retainedBackups ts ctx b k).map Prod.fst).map (fun n => (n, extractTs n)))
      rw [List.pairwise_map, List.pairwise_map]
      apply List.Pairwise.imp ?_ (retainedBackups_pairwise ts ctx b hmono k)
      intro p q h
      exact le_of_lt h
  have hmain : ∃ B', cleanOldBackups b
        ((getBackupFile b (ts (k + 1)), Content.doc (ctx k)) ::
          (getBranchFile b, Content.doc (ctx k)) :: retainedBackups ts ctx b k) =
        (getBackupFile b (ts (k + 1)), Content.doc (ctx k)) ::
          (getBranchFile b, Content.doc (ctx k)) :: B' ∧
      retainedBackups ts ctx b (k + 1) =
        (getBackupFile b (ts (k + 1)), Content.doc (ctx k)) :: B' ∧
      ∀ p ∈ B', p ∈ retainedBackups ts ctx b k := by
    by_cases hk6 : 6 ≤ k
    · refine ⟨[savedEntry ts ctx b k, savedEntry ts ctx b (k - 1),
        savedEntry ts ctx b (k - 2), savedEntry ts ctx b (k - 3)], ?_, ?_, ?_⟩
      · rw [cleanOldBackups_of_sorted _ _ hSorted, hentries,
          retainedBackups_explicit ts ctx b k hk6]
        simp only [savedEntry, List.map_cons, List.map_nil,
          extractTs_getBackupFile, List.drop_succ_cons, List.drop_zero,
          List.foldl_cons, List.foldl_nil]
        rw [fsDelete_cons_ne _ _ (by
          intro hEq
          have := getBackupFile_inj b hEq
          have := hmono.injective this
          omega)]
        rw [fsDelete_cons_ne _ _ (getBranchFile_ne_getBackupFile b (ts (k - 4)))]
        rw [fsDelete_cons_ne _ _ (by
          intro hEq
          have := getBackupFile_inj b hEq
          have := hmono.injective this
          omega)]
        rw [fsDelete_cons_ne _ _ (by
          intro hEq
          have := getBackupFile_inj b hEq
          have := hmono.injective this
          omega)]
        rw [fsDelete_cons_ne _ _ (by
          intro hEq
          have := getBackupFile_inj b hEq
          have := hmono.injective this
          omega)]
        rw [fsDelete_cons_ne _ _ (by
          intro hEq
          have := getBackupFile_inj b hEq
          have := hmono.injective this
          omega)]
        rw [fsDelete_cons_eq]
        rfl
      · have hunfold : retainedBackups ts ctx b (k + 1) =
            if k = 0 then [] else
              (savedEntry ts ctx b (k + 1) :: retainedBackups ts ctx b k).take 5 :=
          rfl
        rw [hunfold, if_neg (by omega), retainedBackups_explicit ts ctx b k hk6]
        rfl
      · intro p hp
        rw [retainedBackups_explicit ts ctx b k hk6]
        rcases List.mem_cons.mp hp with h | hp
        · rw [h]; exact List.mem_cons_self _ _
        rcases List.mem_cons.mp hp with h | hp
        · rw [h]; exact List.mem_cons_of_mem _ (List.mem_cons_self _ _)
        rcases List.mem_cons.mp hp with h | hp
        · rw [h]
          exact List.mem_cons_of_mem _
            (List.mem_cons_of_mem _ (List.mem_cons_self _ _))
        rcases List.mem_cons.mp hp with h | hp
        · rw [h]
          exact List.mem_cons_of_mem _ (List.mem_cons_of_mem _
            (List.mem_cons_of_mem _ (List.mem_cons_self _ _)))
        · exact absurd hp (List.not_mem_nil p)
    · refine ⟨retainedBackups ts ctx b k, ?_, ?_, fun p hp => hp⟩
      · apply cleanOldBackups_eq_self _ _ hSorted
        rw [hentries]
        have h1 := retainedBackups_length_le ts ctx b k
        simp only [List.length_cons, List.length_map]
        omega
      · have hunfold : retainedBackups ts ctx b (k + 1) =
            if k = 0 then [] else
              (savedEntry ts ctx b (k + 1) :: retainedBackups ts ctx b k).take 5 :=
          rfl
        rw [hunfold, if_neg (by omega)]
        apply List.take_of_length_le
        have h1 := retainedBackups_length_le ts ctx b k
        simp only [List.length_cons]
        omega
  obtain ⟨B', hclean, hret, hsub⟩ := hmain
  have hB'ne_tmp : ∀ p ∈ (getBackupFile b (ts (k + 1)), Content.doc (ctx k)) ::
      (getBranchFile b, Content.doc (ctx k)) :: B',
      p.1 ≠ tempFileName b (ts (k + 1)) salt := by
    intro p hp
    rcases List.mem_cons.mp hp with h | hp
    · rw [h]
      exact Ne.symm (tempFileName_ne_getBackupFile b (ts (k + 1)) (ts (k + 1)) salt)
    rcases List.mem_cons.mp hp with h | hp
    · rw [h]
      exact Ne.symm (tempFileName_ne_getBranchFile b (ts (k + 1)) salt)
    · exact hBne_tmp p (hsub p hp)
  simp only [saveContext]
  rw [if_pos hex, hcb, hclean]
  unfold fsRename
  rw [fsGet_fsSet_self]
  rw [fsDelete_fsSet_self]
  rw [fsDelete_eq_self _ _ hB'ne_tmp]
  unfold fsSet
  rw [fsDelete_cons_ne _ _
    (Ne.symm (getBranchFile_ne_getBackupFile b (ts (k + 1))))]
  rw [fsDelete_cons_eq]
  rw [fsDelete_eq_self _ _ (fun p hp => hBne_canon p (hsub p hp))]
  rw [hret]

theorem iterSave_shape (ts : Nat → Nat) (salt : Nat → List Char)
    (ctx : Nat → BranchContext) (b : List Char) (hmono : StrictMono ts) :
    ∀ k, 1 ≤ k → iterSave ts salt ctx b k =
      (getBranchFile b, .doc (ctx k)) :: retainedBackups ts ctx b k := by
  intro k
  induction k with
  | zero => omega
  | succ k ih =>
    intro _
    by_cases hk : 1 ≤ k
    · have hstep := saveContext_step ts (salt (k + 1)) ctx b k hmono hk
      show saveContext (ts (k + 1)) (salt (k + 1)) b (ctx (k + 1))
        (iterSave ts salt ctx b k) = _
      rw [ih hk, hstep]
    · have hk0 : k = 0 := by omega
      subst hk0
      show saveContext (ts 1) (salt 1) b (ctx 1) [] = _
      simp only [saveContext]
      rw [if_neg (fun h => Bool.noConfusion h)]
      unfold fsRename
      rw [fsGet_fsSet_self, fsDelete_fsSet_self]
      rfl

/-- C4: after N > 5 saves of documents ctx 1 .. ctx N for the same key
with strictly increasing millisecond timestamps ts 1 .. ts N, starting
from an empty directory, the directory holds the canonical file with
the last document plus exactly five backup files: the ones stamped with
the five most recent timestamps ts N .. ts (N-4), each holding the
document that the corresponding save found in the canonical file and
copied aside before overwriting. -/
theorem c4_backup_bound (ts : Nat → Nat) (salt : Nat → List Char)
    (ctx : Nat → BranchContext) (b : List Char) (N : Nat)
    (hmono : StrictMono ts) (hN : 6 ≤ N) :
    iterSave ts salt ctx b N =
      (getBranchFile b, .doc (ctx N)) ::
        [savedEntry ts ctx b N, savedEntry ts ctx b (N - 1),
          savedEntry ts ctx b (N - 2), savedEntry ts ctx b (N - 3),
          savedEntry ts ctx b (N - 4)] ∧
    backupNames (iterSave ts salt ctx b N) b =
      [getBackupFile b (ts N), getBackupFile b (ts (N - 1)),
        getBackupFile b (ts (N - 2)), getBackupFile b (ts (N - 3)),
        getBackupFile b (ts (N - 4))] := by
  have hshape : iterSave ts salt ctx b N =
      (getBranchFile b, .doc (ctx N)) ::
        [savedEntry ts ctx b N, savedEntry ts ctx b (N - 1),
          savedEntry ts ctx b (N - 2), savedEntry ts ctx b (N - 3),
          savedEntry ts ctx b (N - 4)] := by
    rw [iterSave_shape ts salt ctx b hmono N (by omega),
      retainedBackups_explicit ts ctx b N hN]
  refine ⟨hshape, ?_⟩
  rw [hshape]
  unfold backupNames
  simp only [savedEntry, List.map_cons, List.map_nil]
  rw [List.filter_cons, if_neg (by simp [not_isBackupFileOf_canon])]
  rw [List.filter_cons, if_pos (isBackupFileOf_getBackupFile b (ts N))]
  rw [List.filter_cons, if_pos (isBackupFileOf_getBackupFile b (ts (N - 1)))]
  rw [List.filter_cons, if_pos (isBackupFileOf_getBackupFile b (ts (N - 2)))]
  rw [List.filter_cons, if_pos (isBackupFileOf_getBackupFile b (ts (N - 3)))]
  rw [List.filter_cons, if_pos (isBackupFileOf_getBackupFile b (ts (N - 4)))]
  rfl

/-- C4 witness: seven saves at timestamps 1..7 leave the canonical file
plus exactly the backups stamped 7, 6, 5, 4, 3. -/
theorem c4_backup_bound_witness :
    backupNames (iterSave id (fun _ => []) (fun _ => sampleDoc) ['b'] 7) ['b'] =
      [getBackupFile ['b'] 7, getBackupFile ['b'] 6, getBackupFile ['b'] 5,
        getBackupFile ['b'] 4, getBackupFile ['b'] 3] :=
  (c4_backup_bound id (fun _ => []) (fun _ => sampleDoc) ['b'] 7
    strictMono_id (by omega)).2
